import Mathlib

/-!
Verification of the ride-sharing core: a weighted city graph, an indexed
min-heap, the Dijkstra shortest-path engine, a driver registry and the
dispatch orchestrator. Each definition is a shallow embedding of the
corresponding C++ function from the repository (graph.cpp, min_heap.cpp,
dijkstra.cpp, driver_manager.cpp, ride_matcher.cpp).

Modelling conventions:
- C++ double distances are modelled as extended rationals (WithTop Rat):
  the code only adds and compares distances, and uses +infinity as the
  unreached sentinel, which WithTop represents exactly.
- C++ vectors indexed by ints are modelled as lists read through getD, or
  as total functions where the code initialises every slot.
- std::unordered_map is modelled as an association list (iteration order
  of the C++ container is unspecified; where a result depends on that
  order the development uses a relational semantics, see DemandStats).
- while loops are modelled by structural recursion on an explicit fuel
  argument chosen large enough; lemmas show the fuel is never exhausted
  under the documented invariants, so the embedding agrees with the loop.
- Diagnostic log strings are modelled as structured events (LogEvent)
  carrying the same data; the repository documents that logs never
  participate in control flow.
- Fallible C++ paths (exceptions, nontermination) surface as Except and
  Option in the embedding.
-/

namespace RideSharing

/-! ### List index helpers -/

theorem getD_set_self {α : Type} {l : List α} {i : Nat} {a d : α} (h : i < l.length) :
    (l.set i a).getD i d = a := by
  induction l generalizing i with
  | nil => simp at h
  | cons x xs ih =>
    cases i with
    | zero => simp [List.set, List.getD]
    | succ j =>
      simp only [List.set, List.getD_cons_succ]
      exact ih (by simpa using h)

theorem getD_set_ne {α : Type} {l : List α} {i j : Nat} {a d : α} (h : i ≠ j) :
    (l.set i a).getD j d = l.getD j d := by
  induction l generalizing i j with
  | nil => simp [List.set]
  | cons x xs ih =>
    cases i with
    | zero =>
      cases j with
      | zero => exact absurd rfl h
      | succ k => simp [List.set]
    | succ i' =>
      cases j with
      | zero => simp [List.set]
      | succ k =>
        simp only [List.set, List.getD_cons_succ]
        exact ih (by omega)

theorem getD_append_lt {α : Type} {l l₂ : List α} {i : Nat} {d : α} (h : i < l.length) :
    (l ++ l₂).getD i d = l.getD i d := by
  induction l generalizing i with
  | nil => simp at h
  | cons x xs ih =>
    cases i with
    | zero => simp
    | succ j =>
      simp only [List.cons_append, List.getD_cons_succ]
      exact ih (by simp at h; omega)

theorem getD_append_len {α : Type} {l : List α} {a d : α} :
    (l ++ [a]).getD l.length d = a := by
  induction l with
  | nil => simp
  | cons x xs ih => simp only [List.cons_append, List.length_cons, List.getD_cons_succ]; exact ih

theorem getD_dropLast {α : Type} {l : List α} {i : Nat} {d : α} (h : i < l.length - 1) :
    l.dropLast.getD i d = l.getD i d := by
  induction l generalizing i with
  | nil => simp at h
  | cons x xs ih =>
    cases xs with
    | nil => simp at h
    | cons y ys =>
      cases i with
      | zero => simp [List.dropLast]
      | succ j =>
        simp only [List.dropLast, List.getD_cons_succ]
        exact ih (by simp at h ⊢; omega)

theorem getD_eq_default {α : Type} {l : List α} {i : Nat} {d : α} (h : l.length ≤ i) :
    l.getD i d = d := by
  induction l generalizing i with
  | nil => simp [List.getD]
  | cons x xs ih =>
    cases i with
    | zero => simp at h
    | succ j =>
      simp only [List.getD_cons_succ]
      exact ih (by simpa using h)

theorem getD_mem {α : Type} {l : List α} {i : Nat} {d : α} (h : i < l.length) :
    l.getD i d ∈ l := by
  induction l generalizing i with
  | nil => simp at h
  | cons x xs ih =>
    cases i with
    | zero => simp
    | succ j =>
      simp only [List.getD_cons_succ]
      exact List.mem_cons_of_mem _ (ih (by simpa using h))

theorem getD_default_irrel {α : Type} {l : List α} {i : Nat} {d₁ d₂ : α} (h : i < l.length) :
    l.getD i d₁ = l.getD i d₂ := by
  induction l generalizing i with
  | nil => simp at h
  | cons x xs ih =>
    cases i with
    | zero => simp
    | succ j =>
      simp only [List.getD_cons_succ]
      exact ih (by simpa using h)

theorem getLastD_eq_getD {α : Type} {l : List α} {d : α} (h : l ≠ []) :
    l.getLastD d = l.getD (l.length - 1) d := by
  induction l generalizing d with
  | nil => simp at h
  | cons x xs ih =>
    cases xs with
    | nil => simp
    | cons y ys =>
      rw [List.getLastD_cons, ih (by simp)]
      have h₂ : (x :: y :: ys).getD ((x :: y :: ys).length - 1) d
          = (y :: ys).getD ((y :: ys).length - 1) d := by
        simp
      rw [h₂]
      exact getD_default_irrel (by simp)

/-! ### Extended distances

EDist models the C++ double distances used by the engine: finite values are
exact rationals and the top element models +infinity (the unreached
sentinel in dijkstra.cpp and the initial minimum in ride_matcher.cpp). -/

abbrev EDist : Type := WithTop ℚ

/-! ### MinHeap (min_heap.h / min_heap.cpp) -/

/-- HeapNode from min_heap.h: a vertex id with its tentative distance.
The C++ default constructor is HeapNode(-1, infinity). -/
structure HeapNode where
  vertex : Int
  distance : EDist
deriving DecidableEq

instance : Inhabited HeapNode := ⟨⟨-1, ⊤⟩⟩

/-- MinHeap state from min_heap.h: the array of heap nodes plus the
positions map from vertex id to array slot. Operation log strings are
elided (they never affect control flow). -/
structure MinHeap where
  heap : List HeapNode
  positions : Int → Option Nat

def MinHeap.empty : MinHeap := ⟨[], fun _ => none⟩

/-- parent(i) = (i - 1) / 2 from min_heap.h (Nat subtraction agrees with
the C++ int computation for every i at which the code reads the parent,
namely i > 0). -/
def hparent (i : Nat) : Nat := (i - 1) / 2

def hleft (i : Nat) : Nat := 2 * i + 1

def hright (i : Nat) : Nat := 2 * i + 2

def MinHeap.nodeAt (h : MinHeap) (i : Nat) : HeapNode := h.heap.getD i default

/-- MinHeap::swap: update the two positions entries, then exchange the two
array slots. The second positions write (for the node at slot j) wins, as
in the C++ sequence of map assignments. -/
def MinHeap.swap (h : MinHeap) (i j : Nat) : MinHeap :=
  let ni := h.nodeAt i
  let nj := h.nodeAt j
  { heap := (h.heap.set i nj).set j ni
    positions := fun v => if v = nj.vertex then some i else if v = ni.vertex then some j else h.positions v }

/-- MinHeap::heapifyUp, a while loop walking toward the root. The fuel
argument bounds the iteration count; the index strictly decreases each
step, so fuel i + 1 is never exhausted (heapifyUpFuel_fuel_irrelevant
below makes this precise). -/
def MinHeap.heapifyUpFuel : Nat → MinHeap → Nat → MinHeap
  | 0, h, _ => h
  | fuel + 1, h, i =>
    if 0 < i ∧ (h.nodeAt i).distance < (h.nodeAt (hparent i)).distance then
      MinHeap.heapifyUpFuel fuel (h.swap i (hparent i)) (hparent i)
    else h

def MinHeap.heapifyUp (h : MinHeap) (i : Nat) : MinHeap :=
  MinHeap.heapifyUpFuel (i + 1) h i

/-- MinHeap::insert: append the node, record its position, sift up. -/
def MinHeap.insert (h : MinHeap) (v : Int) (d : EDist) : MinHeap :=
  let index := h.heap.length
  let h1 : MinHeap :=
    { heap := h.heap ++ [⟨v, d⟩]
      positions := fun x => if x = v then some index else h.positions x }
  h1.heapifyUp index

/-- MinHeap::heapifyDown, the recursive sift-down. The child index at
least doubles each step, so fuel length + 1 is never exhausted. -/
def MinHeap.heapifyDownFuel : Nat → MinHeap → Nat → MinHeap
  | 0, h, _ => h
  | fuel + 1, h, i =>
    let n := h.heap.length
    let m1 := if hleft i < n ∧ (h.nodeAt (hleft i)).distance < (h.nodeAt i).distance then hleft i else i
    let m := if hright i < n ∧ (h.nodeAt (hright i)).distance < (h.nodeAt m1).distance then hright i else m1
    if m ≠ i then MinHeap.heapifyDownFuel fuel (h.swap i m) m else h

def MinHeap.heapifyDown (h : MinHeap) (i : Nat) : MinHeap :=
  MinHeap.heapifyDownFuel (h.heap.length + 1) h i

/-- MinHeap::extractMin. On an empty heap the C++ returns the sentinel
HeapNode(-1, infinity) and leaves the heap alone. Otherwise it moves the
last node to the root, records its position, pops the back, erases the
minimum vertex from positions (this erase happens after the position
write, so a singleton heap ends with an empty map), and sifts down. -/
def MinHeap.extractMin (h : MinHeap) : HeapNode × MinHeap :=
  if h.heap.isEmpty then (default, h)
  else
    let minNode := h.nodeAt 0
    let last := h.heap.getLastD default
    let h1 : MinHeap :=
      { heap := (h.heap.set 0 last).dropLast
        positions := fun v =>
          if v = minNode.vertex then none
          else if v = last.vertex then some 0
          else h.positions v }
    (minNode, if h1.heap.isEmpty then h1 else h1.heapifyDown 0)

/-- MinHeap::decreaseKey: an absent vertex is inserted fresh; a present
vertex has its stored distance overwritten in place, followed by a sift
up. The C++ never checks that the new key is smaller. -/
def MinHeap.decreaseKey (h : MinHeap) (v : Int) (d : EDist) : MinHeap :=
  match h.positions v with
  | none => h.insert v d
  | some index =>
    let h1 : MinHeap := { h with heap := h.heap.set index ⟨(h.nodeAt index).vertex, d⟩ }
    h1.heapifyUp index

def MinHeap.contains (h : MinHeap) (v : Int) : Bool := (h.positions v).isSome

def MinHeap.size (h : MinHeap) : Nat := h.heap.length

def MinHeap.isEmpty (h : MinHeap) : Bool := h.heap.isEmpty

/-- The distance currently stored for a vertex, read through the
positions map. -/
def MinHeap.keyOf (h : MinHeap) (v : Int) : Option EDist :=
  match h.positions v with
  | none => none
  | some i => some (h.nodeAt i).distance

/-! ### Graph (graph.h / graph.cpp) -/

/-- Edge from graph.h: destination vertex, weight, optional road name. -/
structure Edge where
  destination : Int
  weight : ℚ
  roadName : String
deriving DecidableEq

/-- Node from graph.h. Latitude and longitude are stored but never read by
the engine; they are carried as rationals. -/
structure Node where
  id : Int
  name : String
  latitude : ℚ
  longitude : ℚ
deriving DecidableEq

/-- Graph from graph.h: a fixed vertex count, the adjacency list sized to
it, and the id-to-Node metadata map (an association list standing for the
unordered map; only key membership matters to the engine). -/
structure Graph where
  numVertices : Nat
  adjacencyList : List (List Edge)
  nodes : List (Int × Node)
deriving DecidableEq

/-- Graph::Graph(int vertices): adjacency list resized to the vertex
count, no nodes registered. -/
def Graph.new (n : Nat) : Graph := ⟨n, List.replicate n [], []⟩

/-- Graph::nodeExists: membership in the node metadata map. -/
def Graph.nodeExists (g : Graph) (id : Int) : Bool :=
  g.nodes.any (fun p => p.1 == id)

/-- Graph::addNode: validates the id range (out_of_range otherwise) and
upserts the metadata entry. -/
def Graph.addNode (g : Graph) (id : Int) (name : String) (lat lon : ℚ) :
    Except String Graph :=
  if id < 0 ∨ (g.numVertices : Int) ≤ id then .error "Invalid node ID"
  else .ok { g with nodes := (id, ⟨id, name, lat, lon⟩) :: g.nodes.filter (fun p => p.1 != id) }

/-- Append one directed entry to the adjacency bucket of a vertex. -/
def appendAdj (l : List (List Edge)) (i : Nat) (e : Edge) : List (List Edge) :=
  l.set i (l.getD i [] ++ [e])

/-- Graph::addEdge: validates both endpoints and the weight, then appends
the two directed entries of the bidirectional road. -/
def Graph.addEdge (g : Graph) (src dest : Int) (w : ℚ) (roadName : String) :
    Except String Graph :=
  if src < 0 ∨ (g.numVertices : Int) ≤ src ∨ dest < 0 ∨ (g.numVertices : Int) ≤ dest then
    .error "Invalid vertex index"
  else if w < 0 then .error "Edge weight cannot be negative"
  else .ok { g with
    adjacencyList := appendAdj (appendAdj g.adjacencyList src.toNat ⟨dest, w, roadName⟩) dest.toNat ⟨src, w, roadName⟩ }

/-- Graph::addDirectedEdge: same validation, a single directed entry. -/
def Graph.addDirectedEdge (g : Graph) (src dest : Int) (w : ℚ) (roadName : String) :
    Except String Graph :=
  if src < 0 ∨ (g.numVertices : Int) ≤ src ∨ dest < 0 ∨ (g.numVertices : Int) ≤ dest then
    .error "Invalid vertex index"
  else if w < 0 then .error "Edge weight cannot be negative"
  else .ok { g with
    adjacencyList := appendAdj g.adjacencyList src.toNat ⟨dest, w, roadName⟩ }

/-- Graph::getAdjacentNodes: none models the out_of_range exception for an
invalid vertex index. -/
def Graph.getAdjacentNodes (g : Graph) (v : Int) : Option (List Edge) :=
  if v < 0 ∨ (g.numVertices : Int) ≤ v then none
  else some (g.adjacencyList.getD v.toNat [])

/-- Graph integrity, exactly the property checked by Graph::validate plus
the two structural facts the constructor and addNode guarantee: the
adjacency list has one bucket per vertex and every registered node id is
in range. Every graph built through the construction API satisfies it. -/
def Graph.WF (g : Graph) : Prop :=
  g.adjacencyList.length = g.numVertices ∧
  (∀ es ∈ g.adjacencyList, ∀ e ∈ es,
    0 ≤ e.destination ∧ e.destination < (g.numVertices : Int) ∧ 0 ≤ e.weight) ∧
  (∀ p ∈ g.nodes, 0 ≤ p.1 ∧ p.1 < (g.numVertices : Int))

instance (g : Graph) : Decidable g.WF := by
  unfold Graph.WF; infer_instance

/-- There is a directed entry from u to v of weight w in the adjacency
structure (reachable through the valid-index read the engine performs). -/
def Graph.hasEdge (g : Graph) (u v : Int) (w : ℚ) : Prop :=
  ∃ es, g.getAdjacentNodes u = some es ∧ ∃ e ∈ es, e.destination = v ∧ e.weight = w

/-- A walk through the graph as the list of visited vertices, together
with the total weight of a choice of connecting edges. -/
inductive Chain (g : Graph) : List Int → ℚ → Prop
  | single (u : Int) : Chain g [u] 0
  | cons (u v : Int) (w c : ℚ) (rest : List Int) :
      g.hasEdge u v w → Chain g (v :: rest) c → Chain g (u :: v :: rest) (w + c)

def Reaches (g : Graph) (s v : Int) : Prop :=
  ∃ p c, Chain g p c ∧ p.head? = some s ∧ p.getLast? = some v

/-- d is the exact shortest-path distance from s to v: it bounds every
walk from below and, when finite, is attained by a walk. -/
def IsShortestDist (g : Graph) (s v : Int) (d : EDist) : Prop :=
  (∀ p c, Chain g p c → p.head? = some s → p.getLast? = some v → d ≤ (c : EDist)) ∧
  (d ≠ ⊤ → ∃ p c, Chain g p c ∧ p.head? = some s ∧ p.getLast? = some v ∧ (c : EDist) = d)

/-- The predecessor walk from v back to s, as recorded by the relaxation
loop: the list is v, pred v, ... , s, every step follows an edge whose
endpoints satisfy the recorded-distance inequality. -/
inductive BackPath (g : Graph) (dist : Int → EDist) (pred : Int → Int) (s : Int) :
    Int → List Int → Prop
  | base : BackPath g dist pred s s [s]
  | step (v : Int) (l : List Int) :
      v ≠ s →
      (∃ w, g.hasEdge (pred v) v w ∧ dist (pred v) + (w : EDist) ≤ dist v) →
      BackPath g dist pred s (pred v) l →
      BackPath g dist pred s v (v :: l)

/-! ### Dijkstra (dijkstra.h / dijkstra.cpp) -/

/-- DijkstraResult from dijkstra.h. The distance and predecessor vectors
are modelled as total functions (the code initialises every slot before
the loop); algorithm log strings are elided. -/
structure DijkstraResult where
  distances : Int → EDist
  predecessors : Int → Int
  success : Bool
  errorMessage : String

/-- PathResult from dijkstra.h. -/
structure PathResult where
  path : List Int
  totalDistance : EDist
  estimatedTime : ℚ
  roadNames : List String
  found : Bool
deriving DecidableEq

/-- The C++ PathResult default constructor. -/
instance : Inhabited PathResult := ⟨⟨[], 0, 0, [], false⟩⟩

/-- The mutable state of the relaxation loop in Dijkstra::findShortestPaths. -/
structure DState where
  dist : Int → EDist
  pred : Int → Int
  pq : MinHeap

/-- The neighbour loop of Dijkstra::findShortestPaths: relax each outgoing
edge of u in order, updating distance, predecessor and the queue on a
strict improvement. -/
def relaxEdges (u : Int) : List Edge → DState → DState
  | [], st => st
  | e :: rest, st =>
    let newDist := st.dist u + (e.weight : EDist)
    if newDist < st.dist e.destination then
      relaxEdges u rest
        { dist := fun x => if x = e.destination then newDist else st.dist x
          pred := fun x => if x = e.destination then u else st.pred x
          pq := st.pq.decreaseKey e.destination newDist }
    else relaxEdges u rest st

/-- Outcome of the main while loop: the final state, or the state at which
the neighbour lookup threw (the catch branch of the C++ loop). -/
inductive LoopResult where
  | done (st : DState)
  | failed (st : DState) (msg : String)

/-- The main while loop of Dijkstra::findShortestPaths. Each iteration
extracts the minimum entry, skips it when stale, otherwise relaxes its
neighbours; none signals fuel exhaustion, which the correctness lemmas
rule out for the fuel used by findShortestPaths. -/
def dijkstraLoop (g : Graph) : Nat → DState → Option LoopResult
  | 0, _ => none
  | fuel + 1, st =>
    if st.pq.isEmpty then some (.done st)
    else
      let p := st.pq.extractMin
      let u := p.1.vertex
      let d := p.1.distance
      let st1 : DState := { st with pq := p.2 }
      if st1.dist u < d then dijkstraLoop g fuel st1
      else
        match g.getAdjacentNodes u with
        | none => some (.failed st1 "Error processing node")
        | some es => dijkstraLoop g fuel (relaxEdges u es st1)

/-- Dijkstra::findShortestPaths: validate the source, initialise the
distance and predecessor tables and the queue, run the loop. The fuel
numVertices + 1 is shown sufficient in dijkstraLoop_correct. -/
def Dijkstra.findShortestPaths (g : Graph) (source : Int) : Option DijkstraResult :=
  if g.nodeExists source = false then
    some { distances := fun _ => ⊤, predecessors := fun _ => -1
           success := false, errorMessage := "Source node does not exist" }
  else
    match dijkstraLoop g (g.numVertices + 1)
      { dist := fun v => if v = source then (0 : EDist) else ⊤
        pred := fun _ => -1
        pq := MinHeap.empty.insert source 0 } with
    | none => none
    | some (.done st) =>
        some { distances := st.dist, predecessors := st.pred
               success := true, errorMessage := "" }
    | some (.failed st msg) =>
        some { distances := st.dist, predecessors := st.pred
               success := false, errorMessage := msg }

/-- The backtracking while loop of Dijkstra::reconstructPath: push the
current vertex, stop after pushing the source, step to the predecessor,
stop without pushing on the -1 sentinel. -/
def reconstructLoop (predecessors : Int → Int) (source : Int) : Nat → Int → List Int
  | 0, _ => []
  | fuel + 1, current =>
    if current = -1 then []
    else if current = source then [current]
    else current :: reconstructLoop predecessors source fuel (predecessors current)

/-- Dijkstra::reconstructPath: backtrack from the destination, then
reverse. -/
def Dijkstra.reconstructPath (source destination : Int) (predecessors : Int → Int)
    (fuel : Nat) : List Int :=
  (reconstructLoop predecessors source fuel destination).reverse

/-- Dijkstra::calculateETA: minutes at the given average speed. -/
def Dijkstra.calculateETA (distance : ℚ) (avgSpeedKmh : ℚ) : ℚ :=
  distance / avgSpeedKmh * 60

/-- The road-name resolution loop of Dijkstra::findShortestPath: for each
consecutive pair, the name of the first matching outgoing entry. -/
def roadNamesAlong (g : Graph) (path : List Int) : List String :=
  (path.zip path.tail).filterMap (fun pr =>
    match g.getAdjacentNodes pr.1 with
    | none => none
    | some es => (es.find? (fun e => e.destination == pr.2)).map (fun e => e.roadName))

/-- Dijkstra::findShortestPath: validate both endpoints, run
findShortestPaths, fail on an unreachable destination (exact comparison
with infinity), otherwise reconstruct the path and fill in distance, ETA
at the default average speed 40, and road names. -/
def Dijkstra.findShortestPath (g : Graph) (source destination : Int) :
    Option PathResult :=
  if g.nodeExists source = false then some default
  else if g.nodeExists destination = false then some default
  else
    match Dijkstra.findShortestPaths g source with
    | none => none
    | some dr =>
      if dr.success = false then some default
      else if dr.distances destination = ⊤ then some default
      else
        let path := Dijkstra.reconstructPath source destination dr.predecessors (g.numVertices + 1)
        let td := dr.distances destination
        some { path := path
               totalDistance := td
               estimatedTime := Dijkstra.calculateETA (td.untop' 0) 40
               roadNames := roadNamesAlong g path
               found := true }

/-! ### MinHeap invariants

PosInv is the position-index invariant the spec singles out: the positions
map sends every vertex present in the heap to exactly the array slot that
holds it. OrderInv is the binary min-heap ordering. -/

def MinHeap.PosInv (h : MinHeap) : Prop :=
  (∀ i, i < h.heap.length → h.positions (h.nodeAt i).vertex = some i) ∧
  (∀ v i, h.positions v = some i → i < h.heap.length ∧ (h.nodeAt i).vertex = v)

def MinHeap.OrderInv (h : MinHeap) : Prop :=
  ∀ i, 0 < i → i < h.heap.length → (h.nodeAt (hparent i)).distance ≤ (h.nodeAt i).distance

def MinHeap.Inv (h : MinHeap) : Prop := h.PosInv ∧ h.OrderInv

theorem empty_inv : MinHeap.empty.Inv := by
  refine ⟨⟨?_, ?_⟩, ?_⟩ <;> intros <;> simp_all [MinHeap.empty, MinHeap.OrderInv]

theorem contains_eq_keyOf_isSome (h : MinHeap) (v : Int) :
    h.contains v = (h.keyOf v).isSome := by
  unfold MinHeap.contains MinHeap.keyOf
  cases h.positions v <;> simp

/-- Distinct slots hold distinct vertices under PosInv. -/
theorem posInv_vertex_ne {h : MinHeap} (hp : h.PosInv) {i j : Nat}
    (hi : i < h.heap.length) (hj : j < h.heap.length) (hij : i ≠ j) :
    (h.nodeAt i).vertex ≠ (h.nodeAt j).vertex := by
  intro he
  have h1 := hp.1 i hi
  have h2 := hp.1 j hj
  rw [he] at h1
  rw [h1] at h2
  exact hij (Option.some_inj.mp h2)

theorem swap_length (h : MinHeap) (i j : Nat) :
    (h.swap i j).heap.length = h.heap.length := by
  simp [MinHeap.swap]

theorem nodeAt_swap_fst {h : MinHeap} {i j : Nat} (hi : i < h.heap.length) (hij : i ≠ j) :
    (h.swap i j).nodeAt i = h.nodeAt j := by
  show ((h.heap.set i (h.nodeAt j)).set j (h.nodeAt i)).getD i default = _
  rw [getD_set_ne (fun he => hij he.symm), getD_set_self hi]

theorem nodeAt_swap_snd {h : MinHeap} {i j : Nat} (hj : j < h.heap.length) :
    (h.swap i j).nodeAt j = h.nodeAt i := by
  show ((h.heap.set i (h.nodeAt j)).set j (h.nodeAt i)).getD j default = _
  rw [getD_set_self (by simpa using hj)]

theorem nodeAt_swap_other {h : MinHeap} {i j k : Nat} (hki : k ≠ i) (hkj : k ≠ j) :
    (h.swap i j).nodeAt k = h.nodeAt k := by
  show ((h.heap.set i (h.nodeAt j)).set j (h.nodeAt i)).getD k default = _
  rw [getD_set_ne (fun he => hkj he.symm), getD_set_ne (fun he => hki he.symm)]
  rfl

/-- Two heap states with the same length and the same per-vertex stored
distance. Sift-up and sift-down only permute slots, so the heaps they
produce are related to their input this way. -/
def SameHeap (h h' : MinHeap) : Prop :=
  h'.heap.length = h.heap.length ∧ ∀ v, h'.keyOf v = h.keyOf v

theorem sameHeap_refl (h : MinHeap) : SameHeap h h := ⟨rfl, fun _ => rfl⟩

theorem sameHeap_trans {h₁ h₂ h₃ : MinHeap} (a : SameHeap h₁ h₂) (b : SameHeap h₂ h₃) :
    SameHeap h₁ h₃ := ⟨b.1.trans a.1, fun v => (b.2 v).trans (a.2 v)⟩

theorem swap_posInv {h : MinHeap} (hp : h.PosInv) {i j : Nat}
    (hi : i < h.heap.length) (hj : j < h.heap.length) (hij : i ≠ j) :
    (h.swap i j).PosInv := by
  have hvne := posInv_vertex_ne hp hi hj hij
  constructor
  · intro k hk
    rw [swap_length] at hk
    by_cases hki : k = i
    · subst hki
      rw [nodeAt_swap_fst hi hij]
      show (if _ then _ else _) = _
      rw [if_pos rfl]
    · by_cases hkj : k = j
      · subst hkj
        rw [nodeAt_swap_snd hj]
        show (if _ then _ else _) = _
        rw [if_neg hvne, if_pos rfl]
      · rw [nodeAt_swap_other hki hkj]
        show (if _ then _ else _) = _
        have hk' : k < h.heap.length := hk
        have hx1 : (h.nodeAt k).vertex ≠ (h.nodeAt j).vertex := posInv_vertex_ne hp hk' hj hkj
        have hx2 : (h.nodeAt k).vertex ≠ (h.nodeAt i).vertex := posInv_vertex_ne hp hk' hi hki
        rw [if_neg hx1, if_neg hx2]
        exact hp.1 k hk'
  · intro v m hm
    have hm' : (if v = (h.nodeAt j).vertex then some i else if v = (h.nodeAt i).vertex then some j else h.positions v) = some m := hm
    by_cases h1 : v = (h.nodeAt j).vertex
    · rw [if_pos h1] at hm'
      cases hm'
      refine ⟨by rw [swap_length]; exact hi, ?_⟩
      rw [nodeAt_swap_fst hi hij, h1]
    · rw [if_neg h1] at hm'
      by_cases h2 : v = (h.nodeAt i).vertex
      · rw [if_pos h2] at hm'
        cases hm'
        refine ⟨by rw [swap_length]; exact hj, ?_⟩
        rw [nodeAt_swap_snd hj, h2]
      · rw [if_neg h2] at hm'
        obtain ⟨hmlen, hmv⟩ := hp.2 v m hm'
        have hmi : m ≠ i := by rintro rfl; exact h2 hmv.symm
        have hmj : m ≠ j := by rintro rfl; exact h1 hmv.symm
        refine ⟨by rw [swap_length]; exact hmlen, ?_⟩
        rw [nodeAt_swap_other hmi hmj]
        exact hmv

theorem swap_sameHeap {h : MinHeap} (hp : h.PosInv) {i j : Nat}
    (hi : i < h.heap.length) (hj : j < h.heap.length) (hij : i ≠ j) :
    SameHeap h (h.swap i j) := by
  refine ⟨swap_length h i j, fun v => ?_⟩
  unfold MinHeap.keyOf
  show (match (if v = (h.nodeAt j).vertex then some i else if v = (h.nodeAt i).vertex then some j else h.positions v) with
        | none => none | some k => some ((h.swap i j).nodeAt k).distance) = _
  by_cases h1 : v = (h.nodeAt j).vertex
  · rw [if_pos h1]
    have := hp.1 j hj
    rw [← h1] at this
    rw [this]
    simp only []
    rw [nodeAt_swap_fst hi hij]
  · rw [if_neg h1]
    by_cases h2 : v = (h.nodeAt i).vertex
    · rw [if_pos h2]
      have := hp.1 i hi
      rw [← h2] at this
      rw [this]
      simp only []
      rw [nodeAt_swap_snd hj]
    · rw [if_neg h2]
      cases hv : h.positions v with
      | none => rfl
      | some m =>
        obtain ⟨hmlen, hmv⟩ := hp.2 v m hv
        have hmi : m ≠ i := by rintro rfl; exact h2 hmv.symm
        have hmj : m ≠ j := by rintro rfl; exact h1 hmv.symm
        simp only []
        rw [nodeAt_swap_other hmi hmj]

theorem hparent_lt {i : Nat} (hi : 0 < i) : hparent i < i := by
  unfold hparent; omega

theorem heapifyUpFuel_posInv_same :
    ∀ (f : Nat) (h : MinHeap) (i : Nat), h.PosInv → i < h.heap.length →
    (MinHeap.heapifyUpFuel f h i).PosInv ∧ SameHeap h (MinHeap.heapifyUpFuel f h i) := by
  intro f
  induction f with
  | zero => intro h i hp _; exact ⟨hp, sameHeap_refl h⟩
  | succ f ih =>
    intro h i hp hi
    rw [MinHeap.heapifyUpFuel]
    by_cases hc : 0 < i ∧ (h.nodeAt i).distance < (h.nodeAt (hparent i)).distance
    · rw [if_pos hc]
      have hpi : hparent i < i := hparent_lt hc.1
      have hne : i ≠ hparent i := Nat.ne_of_gt hpi
      have hplt : hparent i < h.heap.length := lt_trans hpi hi
      have hp' := swap_posInv hp hi hplt hne
      have hs' := swap_sameHeap hp hi hplt hne
      have hlen : hparent i < (h.swap i (hparent i)).heap.length := by
        rw [swap_length]; exact hplt
      obtain ⟨hp2, hs2⟩ := ih (h.swap i (hparent i)) (hparent i) hp' hlen
      exact ⟨hp2, sameHeap_trans hs' hs2⟩
    · rw [if_neg hc]; exact ⟨hp, sameHeap_refl h⟩

/-- The heap order holds everywhere except possibly at the link from i up
to its parent; in addition the grandparent of i already bounds the
children of i. This is the sift-up loop invariant. -/
def AlmostUp (h : MinHeap) (i : Nat) : Prop :=
  (∀ j, 0 < j → j < h.heap.length → j ≠ i →
    (h.nodeAt (hparent j)).distance ≤ (h.nodeAt j).distance) ∧
  (0 < i → ∀ j, j < h.heap.length → hparent j = i →
    (h.nodeAt (hparent i)).distance ≤ (h.nodeAt j).distance)

theorem heapifyUpFuel_orderInv :
    ∀ (f : Nat) (h : MinHeap) (i : Nat), h.PosInv → i < h.heap.length → AlmostUp h i →
    i < f → (MinHeap.heapifyUpFuel f h i).OrderInv := by
  intro f
  induction f with
  | zero => intro h i _ _ _ hif; omega
  | succ f ih =>
    intro h i hp hi halm hif
    rw [MinHeap.heapifyUpFuel]
    by_cases hc : 0 < i ∧ (h.nodeAt i).distance < (h.nodeAt (hparent i)).distance
    · rw [if_pos hc]
      obtain ⟨hi0, hlt⟩ := hc
      set p := hparent i with hpdef
      have hpi : p < i := hparent_lt hi0
      have hne : i ≠ p := Nat.ne_of_gt hpi
      have hplen : p < h.heap.length := lt_trans hpi hi
      have Ai : (h.swap i p).nodeAt i = h.nodeAt p := nodeAt_swap_fst hi hne
      have Ap : (h.swap i p).nodeAt p = h.nodeAt i := nodeAt_swap_snd hplen
      have halm' : AlmostUp (h.swap i p) p := by
        constructor
        · intro j hj0 hjlen hjp
          rw [swap_length] at hjlen
          by_cases hji : j = i
          · subst hji
            rw [← hpdef, Ai, Ap]
            exact le_of_lt hlt
          · by_cases hpj : hparent j = i
            · have hjgt : p < j := by
                have : i < j := by unfold hparent at hpj; omega
                omega
              have hjnep : j ≠ p := Nat.ne_of_gt hjgt
              rw [hpj, Ai, nodeAt_swap_other hji hjnep]
              have h2 := halm.2 hi0 j hjlen hpj
              rw [← hpdef] at h2
              exact h2
            · by_cases hpj2 : hparent j = p
              · have hjgt : p < j := by unfold hparent at hpj2; omega
                have hjnep : j ≠ p := Nat.ne_of_gt hjgt
                rw [hpj2, Ap, nodeAt_swap_other hji hjnep]
                have h1 := halm.1 j hj0 hjlen hji
                rw [hpj2] at h1
                exact le_trans (le_of_lt hlt) h1
              · rw [nodeAt_swap_other hpj hpj2, nodeAt_swap_other hji hjp]
                exact halm.1 j hj0 hjlen hji
        · intro hp0 j hjlen hpj
          rw [swap_length] at hjlen
          have hppi : hparent p < p := hparent_lt hp0
          have hppne1 : hparent p ≠ i := by omega
          have hppne2 : hparent p ≠ p := Nat.ne_of_lt hppi
          rw [nodeAt_swap_other hppne1 hppne2]
          have hplem := halm.1 p hp0 hplen (Nat.ne_of_lt hpi)
          by_cases hji : j = i
          · subst hji
            rw [Ai]
            exact hplem
          · have hjgt : p < j := by unfold hparent at hpj; omega
            have hjnep : j ≠ p := Nat.ne_of_gt hjgt
            rw [nodeAt_swap_other hji hjnep]
            have hj0 : 0 < j := by omega
            have h2 := halm.1 j hj0 hjlen hji
            rw [hpj] at h2
            exact le_trans hplem h2
      have hp' := swap_posInv hp hi hplen hne
      have hlen' : p < (h.swap i p).heap.length := by rw [swap_length]; exact hplen
      exact ih (h.swap i p) p hp' hlen' halm' (by omega)
    · rw [if_neg hc]
      intro j hj0 hjlen
      by_cases hji : j = i
      · subst hji
        have : ¬ (h.nodeAt j).distance < (h.nodeAt (hparent j)).distance := by
          intro hlt; exact hc ⟨hj0, hlt⟩
        exact not_lt.mp this
      · exact halm.1 j hj0 hjlen hji

theorem heapifyUp_spec {h : MinHeap} {i : Nat} (hp : h.PosInv) (hi : i < h.heap.length)
    (halm : AlmostUp h i) :
    (h.heapifyUp i).Inv ∧ SameHeap h (h.heapifyUp i) := by
  obtain ⟨hp2, hs2⟩ := heapifyUpFuel_posInv_same (i + 1) h i hp hi
  exact ⟨⟨hp2, heapifyUpFuel_orderInv (i + 1) h i hp hi halm (Nat.lt_succ_self i)⟩, hs2⟩

/-- The pre-sift state built by MinHeap::insert. -/
def insQueue (h : MinHeap) (v : Int) (d : EDist) : MinHeap :=
  { heap := h.heap ++ [⟨v, d⟩]
    positions := fun x => if x = v then some h.heap.length else h.positions x }

theorem insert_eq (h : MinHeap) (v : Int) (d : EDist) :
    h.insert v d = (insQueue h v d).heapifyUp h.heap.length := rfl

theorem contains_false_positions {h : MinHeap} {v : Int} (hni : h.contains v = false) :
    h.positions v = none := by
  unfold MinHeap.contains at hni
  cases hv : h.positions v with
  | none => rfl
  | some m => rw [hv] at hni; simp at hni

theorem insQueue_posInv {h : MinHeap} {v : Int} {d : EDist} (hp : h.PosInv)
    (hni : h.contains v = false) : (insQueue h v d).PosInv := by
  have hvnone := contains_false_positions hni
  have hlen : (insQueue h v d).heap.length = h.heap.length + 1 := by
    simp [insQueue]
  constructor
  · intro k hk
    rw [hlen] at hk
    by_cases hkl : k = h.heap.length
    · subst hkl
      have hnode : (insQueue h v d).nodeAt h.heap.length = ⟨v, d⟩ := by
        unfold MinHeap.nodeAt insQueue
        exact getD_append_len
      rw [hnode]
      show (if v = v then _ else _) = _
      rw [if_pos rfl]
    · have hk' : k < h.heap.length := by omega
      have hnode : (insQueue h v d).nodeAt k = h.nodeAt k := by
        unfold MinHeap.nodeAt insQueue
        exact getD_append_lt hk'
      rw [hnode]
      have hvne : (h.nodeAt k).vertex ≠ v := by
        intro he
        have := hp.1 k hk'
        rw [he, hvnone] at this
        cases this
      show (if _ then _ else _) = _
      rw [if_neg hvne]
      exact hp.1 k hk'
  · intro x m hm
    have hm' : (if x = v then some h.heap.length else h.positions x) = some m := hm
    by_cases hx : x = v
    · rw [if_pos hx] at hm'
      cases hm'
      subst hx
      refine ⟨by rw [hlen]; omega, ?_⟩
      unfold MinHeap.nodeAt insQueue
      rw [getD_append_len]
    · rw [if_neg hx] at hm'
      obtain ⟨hmlen, hmv⟩ := hp.2 x m hm'
      refine ⟨by rw [hlen]; omega, ?_⟩
      have hnode : (insQueue h v d).nodeAt m = h.nodeAt m := by
        unfold MinHeap.nodeAt insQueue
        exact getD_append_lt hmlen
      rw [hnode]
      exact hmv

theorem keyOf_eval {h : MinHeap} {v : Int} {m : Nat} (hm : h.positions v = some m) :
    h.keyOf v = some (h.nodeAt m).distance := by
  unfold MinHeap.keyOf
  rw [hm]

theorem keyOf_none {h : MinHeap} {v : Int} (hm : h.positions v = none) :
    h.keyOf v = none := by
  unfold MinHeap.keyOf
  rw [hm]

theorem insQueue_keyOf_self {h : MinHeap} {v : Int} {d : EDist} :
    (insQueue h v d).keyOf v = some d := by
  have h1 : (insQueue h v d).positions v = some h.heap.length := by
    show (if v = v then _ else _) = _
    rw [if_pos rfl]
  rw [keyOf_eval h1]
  unfold MinHeap.nodeAt insQueue
  rw [getD_append_len]

theorem insQueue_keyOf_other {h : MinHeap} {v x : Int} {d : EDist} (hp : h.PosInv)
    (hx : x ≠ v) : (insQueue h v d).keyOf x = h.keyOf x := by
  have h1 : (insQueue h v d).positions x = h.positions x := by
    show (if x = v then _ else _) = _
    rw [if_neg hx]
  cases hv : h.positions x with
  | none =>
    rw [keyOf_none (by rw [h1, hv]), keyOf_none hv]
  | some m =>
    obtain ⟨hmlen, _⟩ := hp.2 x m hv
    rw [keyOf_eval (by rw [h1, hv] : (insQueue h v d).positions x = some m), keyOf_eval hv]
    have hnode : (insQueue h v d).nodeAt m = h.nodeAt m := by
      unfold MinHeap.nodeAt insQueue
      exact getD_append_lt hmlen
    rw [hnode]

theorem insert_spec (h : MinHeap) (v : Int) (d : EDist) (hinv : h.Inv)
    (hni : h.contains v = false) :
    (h.insert v d).Inv ∧ (h.insert v d).heap.length = h.heap.length + 1 ∧
    (h.insert v d).keyOf v = some d ∧
    (∀ x, x ≠ v → (h.insert v d).keyOf x = h.keyOf x) := by
  have hp1 := insQueue_posInv (d := d) hinv.1 hni
  have hlen1 : (insQueue h v d).heap.length = h.heap.length + 1 := by simp [insQueue]
  have hil : h.heap.length < (insQueue h v d).heap.length := by omega
  have halm : AlmostUp (insQueue h v d) h.heap.length := by
    constructor
    · intro j hj0 hjlen hjne
      rw [hlen1] at hjlen
      have hjl : j < h.heap.length := by omega
      have hpl : hparent j < h.heap.length := by
        have := hparent_lt hj0; omega
      have e1 : (insQueue h v d).nodeAt j = h.nodeAt j := by
        unfold MinHeap.nodeAt insQueue; exact getD_append_lt hjl
      have e2 : (insQueue h v d).nodeAt (hparent j) = h.nodeAt (hparent j) := by
        unfold MinHeap.nodeAt insQueue; exact getD_append_lt hpl
      rw [e1, e2]
      exact hinv.2 j hj0 hjl
    · intro h0 j hjlen hpj
      rw [hlen1] at hjlen
      unfold hparent at hpj
      omega
  obtain ⟨hinv2, hsame⟩ := heapifyUp_spec hp1 hil halm
  rw [insert_eq]
  refine ⟨hinv2, ?_, ?_, ?_⟩
  · rw [hsame.1, hlen1]
  · rw [hsame.2 v, insQueue_keyOf_self]
  · intro x hx
    rw [hsame.2 x, insQueue_keyOf_other hinv.1 hx]

/-- The index minIndex computed by one step of MinHeap::heapifyDown. -/
def downSel (h : MinHeap) (i : Nat) : Nat :=
  let n := h.heap.length
  let m1 := if hleft i < n ∧ (h.nodeAt (hleft i)).distance < (h.nodeAt i).distance then hleft i else i
  if hright i < n ∧ (h.nodeAt (hright i)).distance < (h.nodeAt m1).distance then hright i else m1

theorem heapifyDownFuel_succ_eq (f : Nat) (h : MinHeap) (i : Nat) :
    MinHeap.heapifyDownFuel (f + 1) h i =
      if downSel h i ≠ i then MinHeap.heapifyDownFuel f (h.swap i (downSel h i)) (downSel h i)
      else h := rfl

theorem downSel_spec (h : MinHeap) (i : Nat) :
    (downSel h i = i ∨
      (downSel h i < h.heap.length ∧ i < downSel h i ∧ hparent (downSel h i) = i ∧
        (h.nodeAt (downSel h i)).distance < (h.nodeAt i).distance)) ∧
    (hleft i < h.heap.length →
      (h.nodeAt (downSel h i)).distance ≤ (h.nodeAt (hleft i)).distance) ∧
    (hright i < h.heap.length →
      (h.nodeAt (downSel h i)).distance ≤ (h.nodeAt (hright i)).distance) := by
  simp only [downSel]
  by_cases c1 : hleft i < h.heap.length ∧ (h.nodeAt (hleft i)).distance < (h.nodeAt i).distance
  · rw [if_pos c1]
    by_cases c2 : hright i < h.heap.length ∧ (h.nodeAt (hright i)).distance < (h.nodeAt (hleft i)).distance
    · rw [if_pos c2]
      refine ⟨Or.inr ⟨c2.1, by unfold hright; omega, by unfold hparent hright; omega, lt_trans c2.2 c1.2⟩, ?_, ?_⟩
      · intro _; exact le_of_lt c2.2
      · intro _; exact le_refl _
    · rw [if_neg c2]
      refine ⟨Or.inr ⟨c1.1, by unfold hleft; omega, by unfold hparent hleft; omega, c1.2⟩, ?_, ?_⟩
      · intro _; exact le_refl _
      · intro hr
        by_cases hlr : (h.nodeAt (hright i)).distance < (h.nodeAt (hleft i)).distance
        · exact absurd ⟨hr, hlr⟩ c2
        · exact not_lt.mp hlr
  · rw [if_neg c1]
    by_cases c2 : hright i < h.heap.length ∧ (h.nodeAt (hright i)).distance < (h.nodeAt i).distance
    · rw [if_pos c2]
      refine ⟨Or.inr ⟨c2.1, by unfold hright; omega, by unfold hparent hright; omega, c2.2⟩, ?_, ?_⟩
      · intro hl
        have hil : (h.nodeAt i).distance ≤ (h.nodeAt (hleft i)).distance := by
          by_cases hlt : (h.nodeAt (hleft i)).distance < (h.nodeAt i).distance
          · exact absurd ⟨hl, hlt⟩ c1
          · exact not_lt.mp hlt
        exact le_trans (le_of_lt c2.2) hil
      · intro _; exact le_refl _
    · rw [if_neg c2]
      refine ⟨Or.inl rfl, ?_, ?_⟩
      · intro hl
        by_cases hlt : (h.nodeAt (hleft i)).distance < (h.nodeAt i).distance
        · exact absurd ⟨hl, hlt⟩ c1
        · exact not_lt.mp hlt
      · intro hr
        by_cases hlt : (h.nodeAt (hright i)).distance < (h.nodeAt i).distance
        · exact absurd ⟨hr, hlt⟩ c2
        · exact not_lt.mp hlt

theorem heapifyDownFuel_posInv_same :
    ∀ (f : Nat) (h : MinHeap) (i : Nat), h.PosInv →
    (MinHeap.heapifyDownFuel f h i).PosInv ∧ SameHeap h (MinHeap.heapifyDownFuel f h i) := by
  intro f
  induction f with
  | zero => intro h i hp; exact ⟨hp, sameHeap_refl h⟩
  | succ f ih =>
    intro h i hp
    rw [heapifyDownFuel_succ_eq]
    by_cases hm : downSel h i ≠ i
    · rw [if_pos hm]
      obtain ⟨hA, _, _⟩ := downSel_spec h i
      rcases hA with hA | ⟨hmn, him, _, _⟩
      · exact absurd hA hm
      have hin : i < h.heap.length := lt_trans him hmn
      have hp' := swap_posInv hp hin hmn (Nat.ne_of_lt him)
      have hs' := swap_sameHeap hp hin hmn (Nat.ne_of_lt him)
      obtain ⟨hp2, hs2⟩ := ih _ _ hp'
      exact ⟨hp2, sameHeap_trans hs' hs2⟩
    · rw [if_neg hm]; exact ⟨hp, sameHeap_refl h⟩

/-- The heap order holds everywhere except possibly at the links from i
down to its children; in addition the parent of i already bounds the
children of i. This is the sift-down loop invariant. -/
def AlmostDown (h : MinHeap) (i : Nat) : Prop :=
  (∀ j, 0 < j → j < h.heap.length → hparent j ≠ i →
    (h.nodeAt (hparent j)).distance ≤ (h.nodeAt j).distance) ∧
  (0 < i → ∀ j, j < h.heap.length → hparent j = i →
    (h.nodeAt (hparent i)).distance ≤ (h.nodeAt j).distance)

theorem heapifyDownFuel_orderInv :
    ∀ (f : Nat) (h : MinHeap) (i : Nat), h.PosInv → AlmostDown h i → i < h.heap.length →
    h.heap.length ≤ f + i → (MinHeap.heapifyDownFuel f h i).OrderInv := by
  intro f
  induction f with
  | zero => intro h i _ _ hin hf; omega
  | succ f ih =>
    intro h i hp halm hin hf
    rw [heapifyDownFuel_succ_eq]
    obtain ⟨hA, hB, hC⟩ := downSel_spec h i
    by_cases hm : downSel h i ≠ i
    · rw [if_pos hm]
      rcases hA with hA | ⟨hmn, him, hpm, hlt⟩
      · exact absurd hA hm
      set m := downSel h i with hmdef
      have hnei : i ≠ m := Nat.ne_of_lt him
      have Ai : (h.swap i m).nodeAt i = h.nodeAt m := nodeAt_swap_fst hin hnei
      have Am : (h.swap i m).nodeAt m = h.nodeAt i := nodeAt_swap_snd hmn
      have halm' : AlmostDown (h.swap i m) m := by
        constructor
        · intro j hj0 hjlen hpj
          rw [swap_length] at hjlen
          by_cases hjm : j = m
          · subst hjm
            rw [hpm, Ai, Am]
            exact le_of_lt hlt
          · by_cases hji : j = i
            · subst hji
              have h0j : 0 < j := hj0
              have hppne1 : hparent j ≠ j := Nat.ne_of_lt (hparent_lt h0j)
              have hppne2 : hparent j ≠ m := by
                have := hparent_lt h0j; omega
              rw [nodeAt_swap_other hppne1 hppne2, Ai]
              exact halm.2 h0j m hmn hpm
            · by_cases hpji : hparent j = i
              · rw [hpji, Ai, nodeAt_swap_other hji hjm]
                have hjlr : j = hleft i ∨ j = hright i := by
                  unfold hparent at hpji; unfold hleft hright; omega
                rcases hjlr with hj | hj
                · rw [hj]; exact hB (hj ▸ hjlen)
                · rw [hj]; exact hC (hj ▸ hjlen)
              · rw [nodeAt_swap_other hpji hpj, nodeAt_swap_other hji hjm]
                exact halm.1 j hj0 hjlen hpji
        · intro _ j hjlen hpj
          rw [swap_length] at hjlen
          have hjgt : m < j := by
            unfold hparent at hpj; omega
          have hji : j ≠ i := by omega
          have hjm : j ≠ m := Nat.ne_of_gt hjgt
          rw [hpm, Ai, nodeAt_swap_other hji hjm]
          have hj0 : 0 < j := by omega
          have hpjm : hparent j ≠ i := by rw [hpj]; omega
          have := halm.1 j hj0 hjlen hpjm
          rw [hpj] at this
          exact this
      have hp' := swap_posInv hp hin hmn hnei
      have hmn' : m < (h.swap i m).heap.length := by rw [swap_length]; exact hmn
      have hflen : (h.swap i m).heap.length ≤ f + m := by
        rw [swap_length]; omega
      exact ih _ _ hp' halm' hmn' hflen
    · rw [if_neg hm]
      push_neg at hm
      intro j hj0 hjlen
      by_cases hpj : hparent j = i
      · have hjlr : j = hleft i ∨ j = hright i := by
          unfold hparent at hpj; unfold hleft hright; omega
        rw [hpj, ← hm]
        rcases hjlr with hj | hj
        · rw [hj]; exact hB (hj ▸ hjlen)
        · rw [hj]; exact hC (hj ▸ hjlen)
      · exact halm.1 j hj0 hjlen hpj

theorem heapifyDown_spec {h : MinHeap} (hp : h.PosInv) (halm : AlmostDown h 0)
    (hne : 0 < h.heap.length) :
    (h.heapifyDown 0).Inv ∧ SameHeap h (h.heapifyDown 0) := by
  obtain ⟨hp2, hs2⟩ := heapifyDownFuel_posInv_same (h.heap.length + 1) h 0 hp
  refine ⟨⟨hp2, ?_⟩, hs2⟩
  exact heapifyDownFuel_orderInv (h.heap.length + 1) h 0 hp halm hne (by omega)

theorem rootMin {h : MinHeap} (ho : h.OrderInv) :
    ∀ i, i < h.heap.length → (h.nodeAt 0).distance ≤ (h.nodeAt i).distance := by
  intro i
  induction i using Nat.strong_induction_on with
  | _ i ih =>
    intro hi
    cases Nat.eq_zero_or_pos i with
    | inl h0 => subst h0; exact le_refl _
    | inr h0 =>
      have hp := hparent_lt h0
      exact le_trans (ih (hparent i) hp (lt_trans hp hi)) (ho i h0 hi)

theorem keyOf_root_min {h : MinHeap} (hinv : h.Inv) {x : Int} {k : EDist}
    (hk : h.keyOf x = some k) : (h.nodeAt 0).distance ≤ k := by
  unfold MinHeap.keyOf at hk
  cases hv : h.positions x with
  | none => rw [hv] at hk; cases hk
  | some m =>
    rw [hv] at hk
    cases hk
    exact rootMin hinv.2 m (hinv.1.2 x m hv).1

theorem isEmpty_false_of_ne {l : List HeapNode} (h : l ≠ []) : l.isEmpty = false := by
  cases l with
  | nil => exact absurd rfl h
  | cons x xs => rfl

/-- The pre-sift state built by MinHeap::extractMin on a nonempty heap. -/
def exQueue (h : MinHeap) : MinHeap :=
  { heap := (h.heap.set 0 (h.heap.getLastD default)).dropLast
    positions := fun v =>
      if v = (h.nodeAt 0).vertex then none
      else if v = (h.heap.getLastD default).vertex then some 0
      else h.positions v }

theorem extractMin_eq {h : MinHeap} (hne : h.heap.isEmpty = false) :
    h.extractMin = (h.nodeAt 0,
      if (exQueue h).heap.isEmpty then exQueue h else (exQueue h).heapifyDown 0) := by
  unfold MinHeap.extractMin
  rw [if_neg (by simp [hne])]
  rfl

theorem exQueue_length {h : MinHeap} :
    (exQueue h).heap.length = h.heap.length - 1 := by
  simp [exQueue]

theorem getLastD_nodeAt {h : MinHeap} (hne : h.heap ≠ []) :
    h.heap.getLastD default = h.nodeAt (h.heap.length - 1) :=
  getLastD_eq_getD hne

theorem exQueue_nodeAt_zero {h : MinHeap} (h2 : 2 ≤ h.heap.length) :
    (exQueue h).nodeAt 0 = h.heap.getLastD default := by
  unfold MinHeap.nodeAt exQueue
  simp only []
  rw [getD_dropLast (by simp; omega), getD_set_self (by omega)]

theorem exQueue_nodeAt_mid {h : MinHeap} {k : Nat} (hk0 : k ≠ 0)
    (hk : k < h.heap.length - 1) :
    (exQueue h).nodeAt k = h.nodeAt k := by
  unfold MinHeap.nodeAt exQueue
  simp only []
  rw [getD_dropLast (by simp; omega), getD_set_ne (fun he => hk0 he.symm)]

theorem exQueue_posInv {h : MinHeap} (hp : h.PosInv) (h2 : 2 ≤ h.heap.length) :
    (exQueue h).PosInv := by
  have hne : h.heap ≠ [] := by
    intro he; rw [he] at h2; simp at h2
  have hlastN : h.heap.getLastD default = h.nodeAt (h.heap.length - 1) := getLastD_nodeAt hne
  have hvne : (h.nodeAt 0).vertex ≠ (h.nodeAt (h.heap.length - 1)).vertex :=
    posInv_vertex_ne hp (by omega) (by omega) (by omega)
  constructor
  · intro k hk
    rw [exQueue_length] at hk
    by_cases hk0 : k = 0
    · subst hk0
      rw [exQueue_nodeAt_zero h2, hlastN]
      show (if _ then _ else _) = _
      rw [if_neg (Ne.symm hvne), hlastN, if_pos rfl]
    · rw [exQueue_nodeAt_mid hk0 hk]
      have hkl : k < h.heap.length := by omega
      have hx1 : (h.nodeAt k).vertex ≠ (h.nodeAt 0).vertex :=
        posInv_vertex_ne hp hkl (by omega) hk0
      have hx2 : (h.nodeAt k).vertex ≠ (h.nodeAt (h.heap.length - 1)).vertex :=
        posInv_vertex_ne hp hkl (by omega) (by omega)
      show (if _ then _ else _) = _
      rw [if_neg hx1, hlastN, if_neg hx2]
      exact hp.1 k hkl
  · intro v m hm
    have hm' : (if v = (h.nodeAt 0).vertex then none
        else if v = (h.heap.getLastD default).vertex then some 0
        else h.positions v) = some m := hm
    by_cases h1 : v = (h.nodeAt 0).vertex
    · rw [if_pos h1] at hm'; cases hm'
    · rw [if_neg h1] at hm'
      by_cases hl : v = (h.heap.getLastD default).vertex
      · rw [if_pos hl] at hm'
        cases hm'
        refine ⟨by rw [exQueue_length]; omega, ?_⟩
        rw [exQueue_nodeAt_zero h2, hl]
      · rw [if_neg hl] at hm'
        obtain ⟨hmlen, hmv⟩ := hp.2 v m hm'
        have hm0 : m ≠ 0 := by rintro rfl; exact h1 hmv.symm
        have hmL : m ≠ h.heap.length - 1 := by
          rintro rfl; exact hl (by rw [hlastN]; exact hmv.symm)
        refine ⟨by rw [exQueue_length]; omega, ?_⟩
        rw [exQueue_nodeAt_mid hm0 (by omega)]
        exact hmv

theorem exQueue_almostDown {h : MinHeap} (hinv : h.Inv) (h2 : 2 ≤ h.heap.length) :
    AlmostDown (exQueue h) 0 := by
  constructor
  · intro j hj0 hjlen hpj
    rw [exQueue_length] at hjlen
    have hpj0 : hparent j ≠ 0 := hpj
    have hpjlt : hparent j < j := hparent_lt hj0
    rw [exQueue_nodeAt_mid (by omega) hjlen, exQueue_nodeAt_mid hpj0 (by omega)]
    exact hinv.2 j hj0 (by omega)
  · intro h0; omega

theorem exQueue_keyOf_min {h : MinHeap} :
    (exQueue h).keyOf (h.nodeAt 0).vertex = none := by
  apply keyOf_none
  show (if _ then _ else _) = _
  rw [if_pos rfl]

theorem exQueue_keyOf_other {h : MinHeap} (hp : h.PosInv) (h2 : 2 ≤ h.heap.length)
    {x : Int} (hx : x ≠ (h.nodeAt 0).vertex) :
    (exQueue h).keyOf x = h.keyOf x := by
  have hne : h.heap ≠ [] := by
    intro he; rw [he] at h2; simp at h2
  have hlastN : h.heap.getLastD default = h.nodeAt (h.heap.length - 1) := getLastD_nodeAt hne
  by_cases hl : x = (h.heap.getLastD default).vertex
  · have hpos : (exQueue h).positions x = some 0 := by
      show (if _ then _ else _) = _
      rw [if_neg hx, if_pos hl]
    rw [keyOf_eval hpos, exQueue_nodeAt_zero h2]
    have hposOld : h.positions x = some (h.heap.length - 1) := by
      rw [hl, hlastN]
      exact hp.1 (h.heap.length - 1) (by omega)
    rw [keyOf_eval hposOld, hlastN]
  · have hpos : (exQueue h).positions x = h.positions x := by
      show (if _ then _ else _) = _
      rw [if_neg hx, if_neg hl]
    cases hv : h.positions x with
    | none => rw [keyOf_none (by rw [hpos, hv]), keyOf_none hv]
    | some m =>
      obtain ⟨hmlen, hmv⟩ := hp.2 x m hv
      have hm0 : m ≠ 0 := by rintro rfl; exact hx hmv.symm
      have hmL : m ≠ h.heap.length - 1 := by
        rintro rfl; exact hl (by rw [hlastN]; exact hmv.symm)
      rw [keyOf_eval (by rw [hpos, hv] : (exQueue h).positions x = some m), keyOf_eval hv]
      rw [exQueue_nodeAt_mid hm0 (by omega)]

theorem extractMin_spec (h : MinHeap) (hinv : h.Inv) (hne : h.heap ≠ []) :
    (h.extractMin).1 = h.nodeAt 0 ∧
    (h.extractMin).2.Inv ∧
    (h.extractMin).2.heap.length = h.heap.length - 1 ∧
    (h.extractMin).2.keyOf (h.nodeAt 0).vertex = none ∧
    (∀ x, x ≠ (h.nodeAt 0).vertex → (h.extractMin).2.keyOf x = h.keyOf x) ∧
    (∀ x k, h.keyOf x = some k → (h.nodeAt 0).distance ≤ k) := by
  have hbe := isEmpty_false_of_ne hne
  rw [extractMin_eq hbe]
  have hlen1 : 1 ≤ h.heap.length := by
    cases hl : h.heap with
    | nil => exact absurd hl hne
    | cons a l => simp [hl]
  by_cases h2 : 2 ≤ h.heap.length
  · have hqne : (exQueue h).heap.isEmpty = false := by
      apply isEmpty_false_of_ne
      intro he
      have := exQueue_length (h := h)
      rw [he] at this
      simp at this
      omega
    rw [if_neg (by simp [hqne])]
    have hp1 := exQueue_posInv hinv.1 h2
    have halm := exQueue_almostDown hinv h2
    have hpos : 0 < (exQueue h).heap.length := by rw [exQueue_length]; omega
    obtain ⟨hinv2, hsame⟩ := heapifyDown_spec hp1 halm hpos
    refine ⟨rfl, hinv2, ?_, ?_, ?_, ?_⟩
    · rw [hsame.1, exQueue_length]
    · rw [hsame.2, exQueue_keyOf_min]
    · intro x hx
      rw [hsame.2, exQueue_keyOf_other hinv.1 h2 hx]
    · intro x k hk
      exact keyOf_root_min hinv hk
  · have hlen : h.heap.length = 1 := by omega
    have hqe : (exQueue h).heap.length = 0 := by rw [exQueue_length]; omega
    have hqee : (exQueue h).heap.isEmpty = true := by
      cases hl : (exQueue h).heap with
      | nil => rfl
      | cons a l => rw [hl] at hqe; simp at hqe
    rw [if_pos (by simp [hqee])]
    have hlastN : h.heap.getLastD default = h.nodeAt 0 := by
      rw [getLastD_nodeAt hne, hlen]
    have hposNone : ∀ v, (exQueue h).positions v = none ∨
        ((exQueue h).positions v = h.positions v ∧
          v ≠ (h.nodeAt 0).vertex) := by
      intro v
      by_cases h1 : v = (h.nodeAt 0).vertex
      · left
        show (if _ then _ else _) = _
        rw [if_pos h1]
      · right
        refine ⟨?_, h1⟩
        show (if _ then _ else _) = _
        rw [if_neg h1, if_neg (by rw [hlastN]; exact h1)]
    have hnoOld : ∀ v m, v ≠ (h.nodeAt 0).vertex → h.positions v = some m → False := by
      intro v m hv hm
      obtain ⟨hmlen, hmv⟩ := hinv.1.2 v m hm
      rw [hlen] at hmlen
      interval_cases m
      exact hv hmv.symm
    refine ⟨rfl, ⟨⟨?_, ?_⟩, ?_⟩, ?_, ?_, ?_, ?_⟩
    · intro k hk; rw [hqe] at hk; omega
    · intro v m hm
      rcases hposNone v with hnone | ⟨heq, hvne⟩
      · rw [hnone] at hm; cases hm
      · rw [heq] at hm
        exact absurd hm (fun hm => hnoOld v m hvne hm)
    · intro j hj0 hjlen; rw [hqe] at hjlen; omega
    · rw [hqe]; omega
    · apply keyOf_none
      show (if _ then _ else _) = _
      rw [if_pos rfl]
    · intro x hx
      rcases hposNone x with hnone | ⟨heq, _⟩
      · rw [keyOf_none hnone]
        cases hv : h.positions x with
        | none => rw [keyOf_none hv]
        | some m => exact absurd hv (fun hv => hnoOld x m hx hv)
      · cases hv : h.positions x with
        | none => rw [keyOf_none (by rw [heq, hv]), keyOf_none hv]
        | some m => exact absurd hv (fun hv => hnoOld x m hx hv)
    · intro x k hk
      exact keyOf_root_min hinv hk

/-- The pre-sift state built by MinHeap::decreaseKey on a present vertex:
the stored distance at its slot is overwritten in place. -/
def decQueue (h : MinHeap) (idx : Nat) (d : EDist) : MinHeap :=
  { h with heap := h.heap.set idx ⟨(h.nodeAt idx).vertex, d⟩ }

theorem decreaseKey_eq_present {h : MinHeap} {v : Int} {d : EDist} {idx : Nat}
    (hidx : h.positions v = some idx) :
    h.decreaseKey v d = (decQueue h idx d).heapifyUp idx := by
  unfold MinHeap.decreaseKey
  rw [hidx]
  rfl

theorem decreaseKey_eq_absent {h : MinHeap} {v : Int} {d : EDist}
    (hnone : h.positions v = none) :
    h.decreaseKey v d = h.insert v d := by
  unfold MinHeap.decreaseKey
  rw [hnone]

theorem decQueue_length {h : MinHeap} {idx : Nat} {d : EDist} :
    (decQueue h idx d).heap.length = h.heap.length := by
  simp [decQueue]

theorem decQueue_nodeAt_self {h : MinHeap} {idx : Nat} {d : EDist}
    (hidx : idx < h.heap.length) :
    (decQueue h idx d).nodeAt idx = ⟨(h.nodeAt idx).vertex, d⟩ := by
  unfold MinHeap.nodeAt decQueue
  exact getD_set_self hidx

theorem decQueue_nodeAt_other {h : MinHeap} {idx k : Nat} {d : EDist} (hk : k ≠ idx) :
    (decQueue h idx d).nodeAt k = h.nodeAt k := by
  unfold MinHeap.nodeAt decQueue
  exact getD_set_ne (fun he => hk he.symm)

theorem decQueue_posInv {h : MinHeap} {idx : Nat} {d : EDist} (hp : h.PosInv)
    (hidx : idx < h.heap.length) : (decQueue h idx d).PosInv := by
  constructor
  · intro k hk
    rw [decQueue_length] at hk
    by_cases hki : k = idx
    · subst hki
      rw [decQueue_nodeAt_self hidx]
      exact hp.1 k hk
    · rw [decQueue_nodeAt_other hki]
      exact hp.1 k hk
  · intro x m hm
    obtain ⟨hmlen, hmv⟩ := hp.2 x m hm
    refine ⟨by rw [decQueue_length]; exact hmlen, ?_⟩
    by_cases hmi : m = idx
    · subst hmi
      rw [decQueue_nodeAt_self hidx]
      exact hmv
    · rw [decQueue_nodeAt_other hmi]
      exact hmv

theorem decreaseKey_spec_present (h : MinHeap) (v : Int) (d : EDist) (idx : Nat)
    (hinv : h.Inv) (hidx : h.positions v = some idx)
    (hle : d ≤ (h.nodeAt idx).distance) :
    (h.decreaseKey v d).Inv ∧ (h.decreaseKey v d).heap.length = h.heap.length ∧
    (h.decreaseKey v d).keyOf v = some d ∧
    (∀ x, x ≠ v → (h.decreaseKey v d).keyOf x = h.keyOf x) := by
  obtain ⟨hilen, hiv⟩ := hinv.1.2 v idx hidx
  rw [decreaseKey_eq_present hidx]
  have hp1 := decQueue_posInv (d := d) hinv.1 hilen
  have hil : idx < (decQueue h idx d).heap.length := by
    rw [decQueue_length]; exact hilen
  have halm : AlmostUp (decQueue h idx d) idx := by
    constructor
    · intro j hj0 hjlen hjne
      rw [decQueue_length] at hjlen
      by_cases hpj : hparent j = idx
      · rw [hpj, decQueue_nodeAt_self hilen, decQueue_nodeAt_other hjne]
        have h1 := hinv.2 j hj0 hjlen
        rw [hpj] at h1
        exact le_trans hle h1
      · rw [decQueue_nodeAt_other hpj, decQueue_nodeAt_other hjne]
        exact hinv.2 j hj0 hjlen
    · intro h0 j hjlen hpj
      rw [decQueue_length] at hjlen
      have hpne : hparent idx ≠ idx := Nat.ne_of_lt (hparent_lt h0)
      have hjgt : idx < j := by unfold hparent at hpj; omega
      rw [decQueue_nodeAt_other hpne, decQueue_nodeAt_other (Nat.ne_of_gt hjgt)]
      have h1 := hinv.2 idx h0 hilen
      have h2 := hinv.2 j (by omega) hjlen
      rw [hpj] at h2
      exact le_trans h1 h2
  obtain ⟨hinv2, hsame⟩ := heapifyUp_spec hp1 hil halm
  refine ⟨hinv2, ?_, ?_, ?_⟩
  · rw [hsame.1, decQueue_length]
  · rw [hsame.2]
    have hpos : (decQueue h idx d).positions v = some idx := hidx
    rw [keyOf_eval hpos, decQueue_nodeAt_self hilen]
  · intro x hx
    rw [hsame.2]
    cases hv : h.positions x with
    | none => rw [keyOf_none hv, keyOf_none (show (decQueue h idx d).positions x = none from hv)]
    | some m =>
      obtain ⟨hmlen, hmv⟩ := hinv.1.2 x m hv
      have hmi : m ≠ idx := by
        rintro rfl
        exact hx (hmv.symm.trans hiv)
      rw [keyOf_eval hv, keyOf_eval (show (decQueue h idx d).positions x = some m from hv)]
      rw [decQueue_nodeAt_other hmi]

theorem extractMin_empty {h : MinHeap} (he : h.heap = []) : h.extractMin = (default, h) := by
  unfold MinHeap.extractMin
  rw [if_pos (by simp [he])]

theorem mem_exists_getD {α : Type} [Inhabited α] {l : List α} {e : α} (he : e ∈ l) :
    ∃ i, i < l.length ∧ l.getD i default = e := by
  induction l with
  | nil => cases he
  | cons x xs ih =>
    rcases List.mem_cons.mp he with he | he
    · exact ⟨0, by simp, he.symm⟩
    · obtain ⟨i, hi, hg⟩ := ih he
      exact ⟨i + 1, by simp; omega, hg⟩

/-! ### Heap operation sequences

The public mutating interface of MinHeap, as exercised by any caller:
insert, extractMin and decreaseKey in any order. -/

inductive HeapOp where
  | ins (v : Int) (d : EDist)
  | ext
  | dec (v : Int) (d : EDist)
deriving DecidableEq

def applyOp (h : MinHeap) : HeapOp → MinHeap
  | .ins v d => h.insert v d
  | .ext => (h.extractMin).2
  | .dec v d => h.decreaseKey v d

def runOps (ops : List HeapOp) : MinHeap := List.foldl applyOp MinHeap.empty ops

/-- The claimed precondition on call sequences: insert is only invoked on
a vertex not currently present (so each inserted vertex is present at
most once). -/
def validInserts : MinHeap → List HeapOp → Bool
  | _, [] => true
  | h, op :: ops =>
    (match op with
     | .ins v _ => !(h.contains v)
     | _ => true) && validInserts (applyOp h op) ops

/-- The amended precondition: additionally, decreaseKey never increases
the stored distance of a present vertex (the C++ code does not check
this, and a raising call breaks the heap order). -/
def validOps : MinHeap → List HeapOp → Bool
  | _, [] => true
  | h, op :: ops => validOp h op && validOps (applyOp h op) ops
where
  validOp (h : MinHeap) : HeapOp → Bool
  | .ins v _ => !(h.contains v)
  | .ext => true
  | .dec v d =>
    match h.positions v with
    | none => true
    | some i => decide (d ≤ (h.nodeAt i).distance)

theorem applyOp_inv (h : MinHeap) (op : HeapOp) (hinv : h.Inv)
    (hv : validOps.validOp h op = true) : (applyOp h op).Inv := by
  cases op with
  | ins v d =>
    have hc : h.contains v = false := by
      simp only [validOps.validOp] at hv
      cases hcv : h.contains v
      · rfl
      · rw [hcv] at hv; simp at hv
    exact (insert_spec h v d hinv hc).1
  | ext =>
    cases he : h.heap with
    | nil =>
      show (h.extractMin).2.Inv
      rw [extractMin_empty he]
      exact hinv
    | cons a l =>
      exact (extractMin_spec h hinv (by rw [he]; simp)).2.1
  | dec v d =>
    show (h.decreaseKey v d).Inv
    cases hp : h.positions v with
    | none =>
      rw [decreaseKey_eq_absent hp]
      have hc : h.contains v = false := by unfold MinHeap.contains; rw [hp]; rfl
      exact (insert_spec h v d hinv hc).1
    | some idx =>
      have hle : d ≤ (h.nodeAt idx).distance := by
        simp only [validOps.validOp] at hv
        rw [hp] at hv
        exact of_decide_eq_true hv
      exact (decreaseKey_spec_present h v d idx hinv hp hle).1

theorem foldl_applyOp_inv (ops : List HeapOp) :
    ∀ h : MinHeap, h.Inv → validOps h ops = true → (List.foldl applyOp h ops).Inv := by
  induction ops with
  | nil => intro h hinv _; exact hinv
  | cons op ops ih =>
    intro h hinv hv
    unfold validOps at hv
    rw [Bool.and_eq_true] at hv
    exact ih (applyOp h op) (applyOp_inv h op hinv hv.1) hv.2

theorem runOps_inv (ops : List HeapOp) (hv : validOps MinHeap.empty ops = true) :
    (runOps ops).Inv :=
  foldl_applyOp_inv ops MinHeap.empty empty_inv hv

/-- On a heap satisfying the invariant, extractMin returns an entry of the
heap whose distance is minimal among all stored entries. -/
theorem extractMin_returns_min (h : MinHeap) (hinv : h.Inv) (hne : h.heap ≠ []) :
    (h.extractMin).1 ∈ h.heap ∧
    ∀ e ∈ h.heap, (h.extractMin).1.distance ≤ e.distance := by
  have hlen : 0 < h.heap.length := by
    cases hl : h.heap with
    | nil => exact absurd hl hne
    | cons a l => simp [hl]
  have h1 := (extractMin_spec h hinv hne).1
  constructor
  · rw [h1]
    exact getD_mem hlen
  · intro e he
    rw [h1]
    obtain ⟨i, hi, hg⟩ := mem_exists_getD he
    have := rootMin hinv.2 i hi
    unfold MinHeap.nodeAt at this ⊢
    rw [hg] at this
    exact this

/-! ### Graph well-formedness and walk lemmas -/

theorem adj_total {g : Graph} (h0 : 0 ≤ u) (hn : u < (g.numVertices : Int)) :
    g.getAdjacentNodes u = some (g.adjacencyList.getD u.toNat []) := by
  unfold Graph.getAdjacentNodes
  rw [if_neg (by omega)]

theorem wf_adj {g : Graph} (hwf : g.WF) {u : Int} {es : List Edge}
    (h : g.getAdjacentNodes u = some es) :
    ∀ e ∈ es, 0 ≤ e.destination ∧ e.destination < (g.numVertices : Int) ∧ 0 ≤ e.weight := by
  unfold Graph.getAdjacentNodes at h
  by_cases hb : u < 0 ∨ (g.numVertices : Int) ≤ u
  · rw [if_pos hb] at h; cases h
  · rw [if_neg hb] at h
    cases h
    intro e he
    push_neg at hb
    by_cases hlen : u.toNat < g.adjacencyList.length
    · exact hwf.2.1 _ (getD_mem hlen) e he
    · rw [getD_eq_default (by omega)] at he
      cases he

theorem nodeExists_bounds {g : Graph} (hwf : g.WF) {v : Int}
    (h : g.nodeExists v = true) : 0 ≤ v ∧ v < (g.numVertices : Int) := by
  unfold Graph.nodeExists at h
  rw [List.any_eq_true] at h
  obtain ⟨p, hp, hpv⟩ := h
  have : p.1 = v := by
    cases p
    simpa using hpv
  rw [← this]
  exact hwf.2.2 p hp

theorem hasEdge_wf {g : Graph} (hwf : g.WF) {u v : Int} {w : ℚ}
    (h : g.hasEdge u v w) : 0 ≤ v ∧ v < (g.numVertices : Int) ∧ 0 ≤ w := by
  obtain ⟨es, hadj, e, he, hd, hw⟩ := h
  have := wf_adj hwf hadj e he
  rw [hd, hw] at this
  exact this

theorem chain_nonneg {g : Graph} (hwf : g.WF) {p : List Int} {c : ℚ}
    (h : Chain g p c) : 0 ≤ c := by
  induction h with
  | single u => exact le_refl 0
  | cons u v w c rest he _ ih =>
    have hw := (hasEdge_wf hwf he).2.2
    positivity

theorem chain_ne_nil {g : Graph} {p : List Int} {c : ℚ} (h : Chain g p c) : p ≠ [] := by
  cases h <;> simp

theorem chain_append_edge {g : Graph} {p : List Int} {c : ℚ} {u v : Int} {w : ℚ}
    (h : Chain g p c) (hl : p.getLast? = some u) (he : g.hasEdge u v w) :
    Chain g (p ++ [v]) (c + w) := by
  induction h with
  | single x =>
    have hx : x = u := by simpa using hl
    subst hx
    have : Chain g [x, v] (w + 0) := Chain.cons x v w 0 [] he (Chain.single v)
    simpa [add_comm] using this
  | cons x y w' c' rest hxy hchain ih =>
    have hl' : (y :: rest).getLast? = some u := by
      rwa [List.getLast?_cons_cons] at hl
    have := Chain.cons x y w' (c' + w) (rest ++ [v]) hxy (ih hl')
    simpa [add_assoc] using this

theorem chain_head_ne_nil {g : Graph} {p : List Int} {c : ℚ} (h : Chain g p c) :
    ∃ x rest, p = x :: rest := by
  cases h with
  | single u => exact ⟨u, [], rfl⟩
  | cons u v w c rest _ _ => exact ⟨u, v :: rest, rfl⟩

/-! ### Dijkstra loop invariant -/

/-- The ghost set of vertices already settled by the relaxation loop,
together with everything the loop maintains about the state. -/
structure DInv (g : Graph) (s : Int) (S : Finset Int) (st : DState) : Prop where
  hq : st.pq.Inv
  hContains : ∀ v : Int, st.pq.contains v = true ↔ (st.dist v ≠ ⊤ ∧ v ∉ S)
  hKey : ∀ v k, st.pq.keyOf v = some k → k = st.dist v
  hReal : ∀ v, st.dist v ≠ ⊤ →
    ∃ p c, Chain g p c ∧ p.head? = some s ∧ p.getLast? = some v ∧ (c : EDist) = st.dist v
  hOpt : ∀ u ∈ S, ∀ p c, Chain g p c → p.head? = some s → p.getLast? = some u →
    st.dist u ≤ (c : EDist)
  hRelaxed : ∀ u ∈ S, ∀ es, g.getAdjacentNodes u = some es →
    ∀ e ∈ es, st.dist e.destination ≤ st.dist u + (e.weight : EDist)
  hSFin : ∀ u ∈ S, st.dist u ≠ ⊤
  hSrc : s ∈ S ∨ (S = ∅ ∧ ∀ v, st.pq.contains v = true → v = s)
  hSrc0 : st.dist s = 0
  hValid : ∀ v, st.dist v ≠ ⊤ → 0 ≤ v ∧ v < (g.numVertices : Int)
  hPred : ∀ v, st.dist v ≠ ⊤ → ∃ l, BackPath g st.dist st.pred s v l

theorem dist_nonneg_of_inv {g : Graph} {s : Int} {S : Finset Int} {st : DState}
    (hwf : g.WF) (inv : DInv g s S st) : ∀ v, (0 : EDist) ≤ st.dist v := by
  intro v
  by_cases hv : st.dist v = ⊤
  · rw [hv]; exact le_top
  · obtain ⟨p, c, hc, _, _, hcd⟩ := inv.hReal v hv
    rw [← hcd]
    exact_mod_cast chain_nonneg hwf hc

theorem contains_of_positions {h : MinHeap} {v : Int} {i : Nat}
    (hp : h.positions v = some i) : h.contains v = true := by
  unfold MinHeap.contains
  rw [hp]
  rfl

theorem keyOf_of_contains {h : MinHeap} {v : Int} (hc : h.contains v = true) :
    ∃ k, h.keyOf v = some k := by
  rw [contains_eq_keyOf_isSome] at hc
  cases hk : h.keyOf v with
  | none => rw [hk] at hc; cases hc
  | some k => exact ⟨k, rfl⟩

/-- During the loop, the root key of the queue bounds the cost of every
walk that starts at a settled vertex and ends at an unsettled vertex
present in the queue. This is the crossing-edge argument of the standard
Dijkstra proof. -/
theorem dinv_chain_bound {g : Graph} {s : Int} {S : Finset Int} {st : DState}
    (hwf : g.WF) (inv : DInv g s S st) {t : Int} (ht : t ∉ S) :
    ∀ p c, Chain g p c → ∀ x, p.head? = some x → p.getLast? = some t → x ∈ S →
    (st.pq.nodeAt 0).distance ≤ st.dist x + (c : EDist) := by
  intro p c hc
  induction hc with
  | single a =>
    intro x hh hl hx
    have hxa : a = x := by simpa using hh
    have hta : a = t := by simpa using hl
    rw [← hxa] at hx
    rw [← hta] at ht
    exact absurd hx ht
  | cons a b w c' rest he hch ih =>
    intro x hh hl hx
    have hxa : a = x := by simpa using hh
    rw [← hxa] at hx ⊢
    have hl' : (b :: rest).getLast? = some t := by rwa [List.getLast?_cons_cons] at hl
    have hda : st.dist a ≠ ⊤ := inv.hSFin a hx
    have hadj : st.dist b ≤ st.dist a + (w : EDist) := by
      obtain ⟨es, hadj, e, hees, hd, hw⟩ := he
      have := inv.hRelaxed a hx es hadj e hees
      rw [hd, hw] at this
      exact this
    by_cases hb : b ∈ S
    · have hbnd := ih b (by simp) hl' hb
      calc (st.pq.nodeAt 0).distance ≤ st.dist b + (c' : EDist) := hbnd
        _ ≤ (st.dist a + (w : EDist)) + (c' : EDist) := add_le_add_right hadj _
        _ = st.dist a + ((w + c' : ℚ) : EDist) := by
            rw [WithTop.coe_add, add_assoc]
    · have hfin : st.dist a + (w : EDist) ≠ ⊤ :=
        WithTop.add_ne_top.mpr ⟨hda, WithTop.coe_ne_top⟩
      have hdb : st.dist b ≠ ⊤ := ne_top_of_le_ne_top hfin hadj
      have hconb : st.pq.contains b = true := (inv.hContains b).mpr ⟨hdb, hb⟩
      obtain ⟨k, hk⟩ := keyOf_of_contains hconb
      have hkb : k = st.dist b := inv.hKey b k hk
      have hroot := keyOf_root_min inv.hq hk
      have hc' : (0 : ℚ) ≤ c' := chain_nonneg hwf hch
      calc (st.pq.nodeAt 0).distance ≤ k := hroot
        _ = st.dist b := hkb
        _ ≤ st.dist a + (w : EDist) := hadj
        _ ≤ st.dist a + ((w + c' : ℚ) : EDist) := by
            apply add_le_add_left
            exact_mod_cast le_add_of_nonneg_right hc'

/-- The vertex extracted by the loop has exact shortest distance. -/
theorem extract_optimal {g : Graph} {s : Int} {S : Finset Int} {st : DState}
    (hwf : g.WF) (inv : DInv g s S st) (hne : st.pq.heap ≠ []) :
    ∀ p c, Chain g p c → p.head? = some s →
    p.getLast? = some ((st.pq.nodeAt 0).vertex) →
    st.dist ((st.pq.nodeAt 0).vertex) ≤ (c : EDist) := by
  have hlen : 0 < st.pq.heap.length := by
    cases hl : st.pq.heap with
    | nil => exact absurd hl hne
    | cons a l => simp [hl]
  have hposu : st.pq.positions (st.pq.nodeAt 0).vertex = some 0 := inv.hq.1.1 0 hlen
  have hkeyu : st.pq.keyOf (st.pq.nodeAt 0).vertex = some (st.pq.nodeAt 0).distance :=
    keyOf_eval hposu
  have hconu : st.pq.contains (st.pq.nodeAt 0).vertex = true := contains_of_positions hposu
  have hud : (st.pq.nodeAt 0).distance = st.dist (st.pq.nodeAt 0).vertex :=
    inv.hKey _ _ hkeyu
  obtain ⟨hdu, hus⟩ := (inv.hContains _).mp hconu
  intro p c hc hh hl
  rcases inv.hSrc with hsS | ⟨_, honly⟩
  · have hbnd := dinv_chain_bound hwf inv hus p c hc s hh hl hsS
    rw [hud, inv.hSrc0, zero_add] at hbnd
    exact hbnd
  · have hu_s : (st.pq.nodeAt 0).vertex = s := honly _ hconu
    rw [hu_s, inv.hSrc0]
    have : (0 : ℚ) ≤ c := chain_nonneg hwf hc
    exact_mod_cast this

theorem head_append_left {α : Type} {l l₂ : List α} (h : l ≠ []) :
    (l ++ l₂).head? = l.head? := by
  cases l with
  | nil => exact absurd rfl h
  | cons x xs => rfl

theorem backpath_dist_le {g : Graph} {dist : Int → EDist} {pred : Int → Int} {s : Int}
    (hwf : g.WF) :
    ∀ {v : Int} {l : List Int}, BackPath g dist pred s v l → ∀ y ∈ l, dist y ≤ dist v := by
  intro v l h
  induction h with
  | base =>
    intro y hy
    rw [List.mem_singleton] at hy
    subst hy
    exact le_refl _
  | step v l hvs hex hbp ih =>
    intro y hy
    rcases List.mem_cons.mp hy with rfl | hy
    · exact le_refl _
    · obtain ⟨w, he, hle⟩ := hex
      have hw := (hasEdge_wf hwf he).2.2
      have h1 : dist (pred v) ≤ dist v := by
        refine le_trans (le_add_of_nonneg_right ?_) hle
        exact_mod_cast hw
      exact le_trans (ih y hy) h1

theorem backpath_stable {g : Graph} {dist dist' : Int → EDist} {pred pred' : Int → Int}
    {s t : Int} (hmono : ∀ y, dist' y ≤ dist y)
    (hoth : ∀ y, y ≠ t → dist' y = dist y ∧ pred' y = pred y) :
    ∀ {v : Int} {l : List Int}, BackPath g dist pred s v l → (∀ y ∈ l, y ≠ t) →
    BackPath g dist' pred' s v l := by
  intro v l h
  induction h with
  | base => intro _; exact .base
  | step v l hvs hex hbp ih =>
    intro hnt
    have hvnt : v ≠ t := hnt v (by simp)
    obtain ⟨hdv, hpv⟩ := hoth v hvnt
    obtain ⟨w, he, hle⟩ := hex
    refine BackPath.step v l hvs ⟨w, ?_, ?_⟩ ?_
    · rw [hpv]; exact he
    · rw [hpv, hdv]
      exact le_trans (add_le_add_right (hmono _) _) hle
    · rw [hpv]
      exact ih (fun y hy => hnt y (List.mem_cons_of_mem _ hy))

theorem backpath_repair {g : Graph} {dist dist' : Int → EDist} {pred pred' : Int → Int}
    {s t : Int} {lt : List Int} (hmono : ∀ y, dist' y ≤ dist y)
    (hoth : ∀ y, y ≠ t → dist' y = dist y ∧ pred' y = pred y)
    (hnew : BackPath g dist' pred' s t lt) :
    ∀ {v : Int} {l : List Int}, BackPath g dist pred s v l →
    ∃ l', BackPath g dist' pred' s v l' := by
  intro v l h
  induction h with
  | base => exact ⟨[s], .base⟩
  | step v l hvs hex hbp ih =>
    by_cases hvt : v = t
    · subst hvt; exact ⟨lt, hnew⟩
    · obtain ⟨l', hbp'⟩ := ih
      obtain ⟨hdv, hpv⟩ := hoth v hvt
      obtain ⟨w, he, hle⟩ := hex
      refine ⟨v :: l', BackPath.step v l' hvs ⟨w, ?_, ?_⟩ ?_⟩
      · rw [hpv]; exact he
      · rw [hpv, hdv]
        exact le_trans (add_le_add_right (hmono _) _) hle
      · rw [hpv]; exact hbp'

theorem dist_nonneg_of_real {g : Graph} {s : Int} (hwf : g.WF) {dist : Int → EDist}
    (hreal : ∀ v, dist v ≠ ⊤ → ∃ p c, Chain g p c ∧ p.head? = some s ∧
      p.getLast? = some v ∧ (c : EDist) = dist v) :
    ∀ v, (0 : EDist) ≤ dist v := by
  intro v
  by_cases hv : dist v = ⊤
  · rw [hv]; exact le_top
  · obtain ⟨p, c, hc, _, _, hcd⟩ := hreal v hv
    rw [← hcd]
    exact_mod_cast chain_nonneg hwf hc

/-- The loop invariant during the neighbour relaxation of one vertex: the
relaxation facts about outgoing edges of settled vertices are dropped
here and re-established afterwards from monotonicity. -/
structure RelaxInv (g : Graph) (s : Int) (S : Finset Int) (st : DState) : Prop where
  hq : st.pq.Inv
  hContains : ∀ v : Int, st.pq.contains v = true ↔ (st.dist v ≠ ⊤ ∧ v ∉ S)
  hKey : ∀ v k, st.pq.keyOf v = some k → k = st.dist v
  hReal : ∀ v, st.dist v ≠ ⊤ →
    ∃ p c, Chain g p c ∧ p.head? = some s ∧ p.getLast? = some v ∧ (c : EDist) = st.dist v
  hOpt : ∀ u ∈ S, ∀ p c, Chain g p c → p.head? = some s → p.getLast? = some u →
    st.dist u ≤ (c : EDist)
  hSFin : ∀ u ∈ S, st.dist u ≠ ⊤
  hSrcMem : s ∈ S
  hSrc0 : st.dist s = 0
  hValid : ∀ v, st.dist v ≠ ⊤ → 0 ≤ v ∧ v < (g.numVertices : Int)
  hPred : ∀ v, st.dist v ≠ ⊤ → ∃ l, BackPath g st.dist st.pred s v l

theorem relaxEdges_spec (g : Graph) (hwf : g.WF) (s : Int) (S : Finset Int) (u : Int)
    (hu : u ∈ S) :
    ∀ (es : List Edge) (st : DState), RelaxInv g s S st →
      (∀ e ∈ es, g.hasEdge u e.destination e.weight) →
      RelaxInv g s S (relaxEdges u es st) ∧
      (∀ v, (relaxEdges u es st).dist v ≤ st.dist v) ∧
      (∀ x ∈ S, (relaxEdges u es st).dist x = st.dist x) ∧
      (∀ e ∈ es, (relaxEdges u es st).dist e.destination ≤
        (relaxEdges u es st).dist u + (e.weight : EDist)) := by
  intro es
  induction es with
  | nil =>
    intro st inv _
    exact ⟨inv, fun v => le_refl _, fun x _ => rfl, fun e he => absurd he (by simp)⟩
  | cons e rest ih =>
    intro st inv hedges
    have he : g.hasEdge u e.destination e.weight := hedges e (by simp)
    have hrest : ∀ e' ∈ rest, g.hasEdge u e'.destination e'.weight :=
      fun e' he' => hedges e' (List.mem_cons_of_mem _ he')
    simp only [relaxEdges]
    by_cases hlt : st.dist u + (e.weight : EDist) < st.dist e.destination
    · rw [if_pos hlt]
      set t := e.destination with htdef
      set w := e.weight with hwdef
      set nd := st.dist u + (w : EDist) with hnddef
      set st' : DState :=
        { dist := fun x => if x = t then nd else st.dist x
          pred := fun x => if x = t then u else st.pred x
          pq := st.pq.decreaseKey t nd } with hst'def
      have hdu_fin : st.dist u ≠ ⊤ := inv.hSFin u hu
      have hnd_fin : nd ≠ ⊤ := WithTop.add_ne_top.mpr ⟨hdu_fin, WithTop.coe_ne_top⟩
      have SS1 : st'.dist t = nd := by show (if t = t then _ else _) = _; rw [if_pos rfl]
      have SS2 : ∀ x, x ≠ t → st'.dist x = st.dist x := by
        intro x hx; show (if x = t then _ else _) = _; rw [if_neg hx]
      have SP2 : ∀ x, x ≠ t → st'.pred x = st.pred x := by
        intro x hx; show (if x = t then _ else _) = _; rw [if_neg hx]
      have SP1 : st'.pred t = u := by show (if t = t then _ else _) = _; rw [if_pos rfl]
      -- the realising walk for the new distance of t
      obtain ⟨pu, cu, hcu, hhu, hlu, hcdu⟩ := inv.hReal u hdu_fin
      have hchain_t : Chain g (pu ++ [t]) (cu + w) := chain_append_edge hcu hlu he
      have hhead_t : (pu ++ [t]).head? = some s := by
        rw [head_append_left (chain_ne_nil hcu)]; exact hhu
      have hlast_t : (pu ++ [t]).getLast? = some t := List.getLast?_concat _
      have hcost_t : ((cu + w : ℚ) : EDist) = nd := by
        rw [WithTop.coe_add, hcdu]
      have htS : t ∉ S := by
        intro htS
        have := inv.hOpt t htS _ _ hchain_t hhead_t hlast_t
        rw [hcost_t] at this
        exact absurd hlt (not_lt.mpr this)
      have htu : t ≠ u := by rintro rfl; exact htS hu
      have hts : t ≠ s := by
        rintro rfl
        rw [inv.hSrc0] at hlt
        have h0u := dist_nonneg_of_real hwf inv.hReal u
        have : (0 : EDist) ≤ nd := by
          refine le_trans h0u ?_
          refine le_add_of_nonneg_right ?_
          exact_mod_cast (hasEdge_wf hwf he).2.2
        exact absurd hlt (not_lt.mpr this)
      have SS4 : ∀ v, st'.dist v ≤ st.dist v := by
        intro v
        by_cases hv : v = t
        · subst hv; rw [SS1]; exact le_of_lt hlt
        · rw [SS2 v hv]
      -- queue update facts
      have hqfacts : (st.pq.decreaseKey t nd).Inv ∧
          (st.pq.decreaseKey t nd).keyOf t = some nd ∧
          (∀ x, x ≠ t → (st.pq.decreaseKey t nd).keyOf x = st.pq.keyOf x) := by
        cases hpos : st.pq.positions t with
        | none =>
          have hc : st.pq.contains t = false := by
            unfold MinHeap.contains; rw [hpos]; rfl
          rw [decreaseKey_eq_absent hpos]
          obtain ⟨hi, _, hk, hko⟩ := insert_spec st.pq t nd inv.hq hc
          exact ⟨hi, hk, hko⟩
        | some idx =>
          obtain ⟨hilen, hiv⟩ := inv.hq.1.2 t idx hpos
          have hkey : st.pq.keyOf t = some (st.pq.nodeAt idx).distance := keyOf_eval hpos
          have hkd : (st.pq.nodeAt idx).distance = st.dist t := inv.hKey t _ hkey
          have hle : nd ≤ (st.pq.nodeAt idx).distance := by
            rw [hkd]; exact le_of_lt hlt
          obtain ⟨hi, _, hk, hko⟩ := decreaseKey_spec_present st.pq t nd idx inv.hq hpos hle
          exact ⟨hi, hk, hko⟩
      obtain ⟨hq', hkt', hko'⟩ := hqfacts
      -- the new invariant after this single relaxation
      have inv' : RelaxInv g s S st' := by
        refine ⟨hq', ?_, ?_, ?_, ?_, ?_, inv.hSrcMem, ?_, ?_, ?_⟩
        · intro v
          by_cases hv : v = t
          · subst hv
            have hct : st'.pq.contains t = true := by
              rw [contains_eq_keyOf_isSome, hkt']
              rfl
            rw [SS1]
            exact iff_of_true hct ⟨hnd_fin, htS⟩
          · rw [contains_eq_keyOf_isSome, hko' v hv, ← contains_eq_keyOf_isSome, SS2 v hv]
            exact inv.hContains v
        · intro v k hk
          by_cases hv : v = t
          · subst hv
            rw [hkt'] at hk
            cases hk
            rw [SS1]
          · rw [hko' v hv] at hk
            rw [SS2 v hv]
            exact inv.hKey v k hk
        · intro v hv
          by_cases hvt : v = t
          · subst hvt
            rw [SS1]
            exact ⟨pu ++ [t], cu + w, hchain_t, hhead_t, hlast_t, hcost_t⟩
          · rw [SS2 v hvt] at hv ⊢
            exact inv.hReal v hv
        · intro x hx p c hc hh hl
          rw [SS2 x (by rintro rfl; exact htS hx)]
          exact inv.hOpt x hx p c hc hh hl
        · intro x hx
          rw [SS2 x (by rintro rfl; exact htS hx)]
          exact inv.hSFin x hx
        · rw [SS2 s (Ne.symm hts)]
          exact inv.hSrc0
        · intro v hv
          by_cases hvt : v = t
          · subst hvt
            obtain ⟨h0, h1, _⟩ := hasEdge_wf hwf he
            exact ⟨h0, h1⟩
          · rw [SS2 v hvt] at hv
            exact inv.hValid v hv
        · -- predecessor walks survive the update
          have hoth : ∀ y, y ≠ t → st'.dist y = st.dist y ∧ st'.pred y = st.pred y :=
            fun y hy => ⟨SS2 y hy, SP2 y hy⟩
          obtain ⟨lu, hlu'⟩ := inv.hPred u hdu_fin
          have htnotin : ∀ y ∈ lu, y ≠ t := by
            intro y hy heq
            have h1 : st.dist y ≤ st.dist u := backpath_dist_le hwf hlu' y hy
            have h2 : st.dist u ≤ nd := by
              refine le_add_of_nonneg_right ?_
              exact_mod_cast (hasEdge_wf hwf he).2.2
            rw [heq] at h1
            exact absurd hlt (not_lt.mpr (le_trans h1 h2))
          have hbu' : BackPath g st'.dist st'.pred s u lu :=
            backpath_stable SS4 hoth hlu' htnotin
          have hbt : BackPath g st'.dist st'.pred s t (t :: lu) := by
            refine BackPath.step t lu hts ⟨w, ?_, ?_⟩ ?_
            · rw [SP1]; exact he
            · rw [SP1, SS1, SS2 u (Ne.symm htu), hnddef]
            · rw [SP1]; exact hbu'
          intro v hv
          by_cases hvt : v = t
          · subst hvt; exact ⟨t :: lu, hbt⟩
          · rw [SS2 v hvt] at hv
            obtain ⟨l, hl⟩ := inv.hPred v hv
            exact backpath_repair SS4 hoth hbt hl
      obtain ⟨inv'', mono'', fixS'', rel''⟩ := ih st' inv' hrest
      refine ⟨inv'', ?_, ?_, ?_⟩
      · intro v
        exact le_trans (mono'' v) (SS4 v)
      · intro x hx
        rw [fixS'' x hx, SS2 x (by rintro rfl; exact htS hx)]
      · intro e' he'
        rcases List.mem_cons.mp he' with rfl | he'
        · have h1 : (relaxEdges u rest st').dist e'.destination ≤ st'.dist e'.destination :=
            mono'' _
          rw [SS1] at h1
          have h2 : (relaxEdges u rest st').dist u = st.dist u := by
            rw [fixS'' u hu, SS2 u (Ne.symm htu)]
          rw [h2]
          exact h1
        · exact rel'' e' he'
    · rw [if_neg hlt]
      obtain ⟨inv'', mono'', fixS'', rel''⟩ := ih st inv hrest
      refine ⟨inv'', mono'', fixS'', ?_⟩
      intro e' he'
      rcases List.mem_cons.mp he' with rfl | he'
      · have h1 : (relaxEdges u rest st).dist e'.destination ≤ st.dist e'.destination :=
          mono'' _
        have h2 : st.dist e'.destination ≤ st.dist u + (e'.weight : EDist) := not_lt.mp hlt
        have h3 : (relaxEdges u rest st).dist u = st.dist u := fixS'' u hu
        rw [h3]
        exact le_trans h1 h2
      · exact rel'' e' he'

/-- The integer ids of valid vertices, as a finite set. -/
def validVerts (g : Graph) : Finset Int :=
  (Finset.range g.numVertices).image (fun k : Nat => (k : Int))

theorem settled_card_le {g : Graph} {s : Int} {S : Finset Int} {st : DState}
    (inv : DInv g s S st) : S.card ≤ g.numVertices := by
  have hsub : S ⊆ validVerts g := by
    intro u huS
    have hfin := inv.hSFin u huS
    obtain ⟨h0, h1⟩ := inv.hValid u hfin
    unfold validVerts
    rw [Finset.mem_image]
    have h2 : u.toNat < g.numVertices := by omega
    exact ⟨u.toNat, Finset.mem_range.mpr h2, Int.toNat_of_nonneg h0⟩
  calc S.card ≤ (validVerts g).card := Finset.card_le_card hsub
    _ ≤ (Finset.range g.numVertices).card := Finset.card_image_le
    _ = g.numVertices := Finset.card_range _

theorem dijkstraLoop_correct (g : Graph) (hwf : g.WF) (s : Int) :
    ∀ (fuel : Nat) (S : Finset Int) (st : DState), DInv g s S st →
    g.numVertices + 1 ≤ fuel + S.card →
    ∃ stf Sf, dijkstraLoop g fuel st = some (.done stf) ∧ DInv g s Sf stf ∧
      stf.pq.heap = [] := by
  intro fuel
  induction fuel with
  | zero =>
    intro S st inv hbound
    have := settled_card_le inv
    omega
  | succ fuel ih =>
    intro S st inv hbound
    simp only [dijkstraLoop]
    by_cases hemp : st.pq.isEmpty = true
    · rw [if_pos hemp]
      have hheap : st.pq.heap = [] := by
        unfold MinHeap.isEmpty at hemp
        cases hl : st.pq.heap with
        | nil => rfl
        | cons a l => rw [hl] at hemp; simp at hemp
      exact ⟨st, S, rfl, inv, hheap⟩
    · rw [if_neg hemp]
      have hne : st.pq.heap ≠ [] := by
        intro he
        apply hemp
        unfold MinHeap.isEmpty
        rw [he]
        rfl
      have hlen0 : 0 < st.pq.heap.length := by
        cases hl : st.pq.heap with
        | nil => exact absurd hl hne
        | cons a l => simp [hl]
      obtain ⟨hfst, hinv2, hlen2, hknone, hkoth, hmin⟩ := extractMin_spec st.pq inv.hq hne
      rw [hfst]
      have hposu : st.pq.positions (st.pq.nodeAt 0).vertex = some 0 := inv.hq.1.1 0 hlen0
      have hconu : st.pq.contains (st.pq.nodeAt 0).vertex = true := contains_of_positions hposu
      obtain ⟨hdu_fin, huS⟩ := (inv.hContains _).mp hconu
      have hkeyu : st.pq.keyOf (st.pq.nodeAt 0).vertex = some (st.pq.nodeAt 0).distance :=
        keyOf_eval hposu
      have hdu : (st.pq.nodeAt 0).distance = st.dist (st.pq.nodeAt 0).vertex :=
        inv.hKey _ _ hkeyu
      rw [if_neg (by rw [← hdu]; exact lt_irrefl _)]
      obtain ⟨h0u, h1u⟩ := inv.hValid _ hdu_fin
      have hadj : g.getAdjacentNodes (st.pq.nodeAt 0).vertex =
          some (g.adjacencyList.getD (st.pq.nodeAt 0).vertex.toNat []) := adj_total h0u h1u
      rw [hadj]
      have hrelaxInv : RelaxInv g s (insert (st.pq.nodeAt 0).vertex S)
          { st with pq := (st.pq.extractMin).2 } := by
        refine ⟨hinv2, ?_, ?_, inv.hReal, ?_, ?_, ?_, inv.hSrc0,
          inv.hValid, inv.hPred⟩
        · intro v
          by_cases hv : v = (st.pq.nodeAt 0).vertex
          · subst hv
            rw [contains_eq_keyOf_isSome, hknone]
            constructor
            · intro h; cases h
            · intro h
              exact absurd (Finset.mem_insert_self _ _) h.2
          · rw [contains_eq_keyOf_isSome, hkoth v hv, ← contains_eq_keyOf_isSome]
            rw [inv.hContains v]
            constructor
            · intro h
              exact ⟨h.1, fun hm => h.2 (by
                rcases Finset.mem_insert.mp hm with heq | hm2
                · exact absurd heq hv
                · exact hm2)⟩
            · intro h
              exact ⟨h.1, fun hm => h.2 (Finset.mem_insert_of_mem hm)⟩
        · intro v k hk
          by_cases hv : v = (st.pq.nodeAt 0).vertex
          · subst hv
            rw [hknone] at hk
            cases hk
          · rw [hkoth v hv] at hk
            exact inv.hKey v k hk
        · intro x hx p c hc hh hl
          rcases Finset.mem_insert.mp hx with rfl | hx2
          · exact extract_optimal hwf inv hne p c hc hh hl
          · exact inv.hOpt x hx2 p c hc hh hl
        · intro x hx
          rcases Finset.mem_insert.mp hx with rfl | hx2
          · exact hdu_fin
          · exact inv.hSFin x hx2
        · rcases inv.hSrc with hsS | ⟨_, honly⟩
          · exact Finset.mem_insert_of_mem hsS
          · rw [← honly _ hconu]
            exact Finset.mem_insert_self _ _
      have hedges : ∀ e ∈ g.adjacencyList.getD (st.pq.nodeAt 0).vertex.toNat [],
          g.hasEdge (st.pq.nodeAt 0).vertex e.destination e.weight :=
        fun e he => ⟨_, hadj, e, he, rfl, rfl⟩
      obtain ⟨rinv, mono, fixS, rel⟩ := relaxEdges_spec g hwf s
        (insert (st.pq.nodeAt 0).vertex S) (st.pq.nodeAt 0).vertex
        (Finset.mem_insert_self _ _) _ _ hrelaxInv hedges
      have hSrcMem := rinv.hSrcMem
      have inv2 : DInv g s (insert (st.pq.nodeAt 0).vertex S)
          (relaxEdges (st.pq.nodeAt 0).vertex
            (g.adjacencyList.getD (st.pq.nodeAt 0).vertex.toNat [])
            { st with pq := (st.pq.extractMin).2 }) := by
        refine ⟨rinv.hq, rinv.hContains, rinv.hKey, rinv.hReal, rinv.hOpt, ?_, rinv.hSFin,
          Or.inl hSrcMem, rinv.hSrc0, rinv.hValid, rinv.hPred⟩
        intro x hx es' hadj' e he'
        rcases Finset.mem_insert.mp hx with rfl | hx2
        · have hes : es' = g.adjacencyList.getD (st.pq.nodeAt 0).vertex.toNat [] := by
            rw [hadj] at hadj'
            exact (Option.some_inj.mp hadj').symm
          subst hes
          exact rel e he'
        · have hold := inv.hRelaxed x hx2 es' hadj' e he'
          have h1 := mono e.destination
          have h2 := fixS x (Finset.mem_insert_of_mem hx2)
          rw [h2]
          exact le_trans h1 hold
      have hcard : (insert (st.pq.nodeAt 0).vertex S).card = S.card + 1 :=
        Finset.card_insert_of_not_mem huS
      exact ih _ _ inv2 (by omega)

theorem findShortestPaths_correct (g : Graph) (hwf : g.WF) (s : Int)
    (hs : g.nodeExists s = true) :
    ∃ r : DijkstraResult, Dijkstra.findShortestPaths g s = some r ∧ r.success = true ∧
      r.distances s = 0 ∧
      (∀ v, IsShortestDist g s v (r.distances v)) ∧
      (∀ v, r.distances v = ⊤ ↔ ¬ Reaches g s v) ∧
      (∀ v, r.distances v ≠ ⊤ → ∃ l, BackPath g r.distances r.predecessors s v l) ∧
      (∀ v, r.distances v ≠ ⊤ → 0 ≤ v ∧ v < (g.numVertices : Int)) := by
  have hsb := nodeExists_bounds hwf hs
  set dist0 : Int → EDist := fun v => if v = s then (0 : EDist) else ⊤ with hd0
  set st0 : DState := { dist := dist0, pred := fun _ => -1, pq := MinHeap.empty.insert s 0 }
    with hst0
  have hcemp : MinHeap.empty.contains s = false := rfl
  obtain ⟨hq0, hlen0, hks0, hko0⟩ := insert_spec MinHeap.empty s 0 empty_inv hcemp
  have hd0s : dist0 s = (0 : EDist) := by rw [hd0]; simp
  have hd0o : ∀ v, v ≠ s → dist0 v = ⊤ := by
    intro v hv; rw [hd0]; simp [hv]
  have hko0' : ∀ x, x ≠ s → (MinHeap.empty.insert s 0).keyOf x = none := by
    intro x hx
    rw [hko0 x hx]
    exact keyOf_none rfl
  have hC : ∀ v, (MinHeap.empty.insert s 0).contains v = true ↔
      (dist0 v ≠ ⊤ ∧ v ∉ (∅ : Finset Int)) := by
    intro v
    by_cases hv : v = s
    · subst hv
      rw [contains_eq_keyOf_isSome, hks0]
      refine iff_of_true rfl ⟨by rw [hd0s]; exact WithTop.zero_ne_top, by simp⟩
    · rw [contains_eq_keyOf_isSome, hko0' v hv]
      refine iff_of_false (by simp) ?_
      rw [hd0o v hv]
      simp
  have hK : ∀ v k, (MinHeap.empty.insert s 0).keyOf v = some k → k = dist0 v := by
    intro v k hk
    by_cases hv : v = s
    · subst hv
      rw [hks0] at hk
      cases hk
      rw [hd0s]
    · rw [hko0' v hv] at hk
      cases hk
  have hR : ∀ v, dist0 v ≠ ⊤ → ∃ p c, Chain g p c ∧ p.head? = some s ∧
      p.getLast? = some v ∧ (c : EDist) = dist0 v := by
    intro v hv
    by_cases hvs : v = s
    · subst hvs
      refine ⟨[v], 0, Chain.single v, rfl, rfl, ?_⟩
      rw [hd0s]
      exact_mod_cast rfl
    · exact absurd (hd0o v hvs) hv
  have hV : ∀ v, dist0 v ≠ ⊤ → 0 ≤ v ∧ v < (g.numVertices : Int) := by
    intro v hv
    by_cases hvs : v = s
    · subst hvs; exact hsb
    · exact absurd (hd0o v hvs) hv
  have hP : ∀ v, dist0 v ≠ ⊤ → ∃ l, BackPath g dist0 (fun _ => -1) s v l := by
    intro v hv
    by_cases hvs : v = s
    · subst hvs
      exact ⟨[v], BackPath.base⟩
    · exact absurd (hd0o v hvs) hv
  have hSrcD : (∅ : Finset Int) = ∅ ∧
      ∀ v, (MinHeap.empty.insert s 0).contains v = true → v = s := by
    refine ⟨rfl, ?_⟩
    intro v hc
    by_cases hv : v = s
    · exact hv
    · rw [contains_eq_keyOf_isSome, hko0' v hv] at hc
      simp at hc
  have inv0 : DInv g s ∅ st0 :=
    ⟨hq0, hC, hK, hR,
      fun u hu => absurd hu (Finset.not_mem_empty u),
      fun u hu => absurd hu (Finset.not_mem_empty u),
      fun u hu => absurd hu (Finset.not_mem_empty u),
      Or.inr hSrcD, hd0s, hV, hP⟩
  obtain ⟨stf, Sf, hloop, hinvf, hheapf⟩ :=
    dijkstraLoop_correct g hwf s (g.numVertices + 1) ∅ st0 inv0 (by simp)
  have hrun : Dijkstra.findShortestPaths g s =
      some { distances := stf.dist, predecessors := stf.pred
             success := true, errorMessage := "" } := by
    unfold Dijkstra.findShortestPaths
    rw [if_neg (by rw [hs]; simp)]
    rw [← hd0, ← hst0, hloop]
  -- every vertex at finite distance is settled in the final state
  have hcontf : ∀ v, stf.pq.contains v = false := by
    intro v
    unfold MinHeap.contains
    cases hp : stf.pq.positions v with
    | none => rfl
    | some i =>
      have := (hinvf.hq.1.2 v i hp).1
      rw [hheapf] at this
      simp at this
  have hSettled : ∀ v, stf.dist v ≠ ⊤ → v ∈ Sf := by
    intro v hv
    by_contra hvn
    have := (hinvf.hContains v).mpr ⟨hv, hvn⟩
    rw [hcontf v] at this
    cases this
  have hclosure : ∀ p c, Chain g p c → ∀ x v, p.head? = some x → p.getLast? = some v →
      stf.dist x ≠ ⊤ → stf.dist v ≤ stf.dist x + (c : EDist) := by
    intro p c hc
    induction hc with
    | single a =>
      intro x v hh hl hx
      have hxa : a = x := by simpa using hh
      have hva : a = v := by simpa using hl
      subst hxa
      rw [← hva]
      rw [show ((0 : ℚ) : EDist) = 0 from rfl, add_zero]
    | cons a b w c' rest he hch ih =>
      intro x v hh hl hx
      have hxa : a = x := by simpa using hh
      rw [← hxa] at hx ⊢
      have hl' : (b :: rest).getLast? = some v := by rwa [List.getLast?_cons_cons] at hl
      have haS : a ∈ Sf := hSettled a hx
      have hab : stf.dist b ≤ stf.dist a + (w : EDist) := by
        obtain ⟨es, hadj, e, hees, hdd, hww⟩ := he
        have := hinvf.hRelaxed a haS es hadj e hees
        rw [hdd, hww] at this
        exact this
      have hfin : stf.dist a + (w : EDist) ≠ ⊤ :=
        WithTop.add_ne_top.mpr ⟨hx, WithTop.coe_ne_top⟩
      have hbfin : stf.dist b ≠ ⊤ := ne_top_of_le_ne_top hfin hab
      have hiv := ih b v (by simp) hl' hbfin
      calc stf.dist v ≤ stf.dist b + (c' : EDist) := hiv
        _ ≤ (stf.dist a + (w : EDist)) + (c' : EDist) := add_le_add_right hab _
        _ = stf.dist a + ((w + c' : ℚ) : EDist) := by rw [WithTop.coe_add, add_assoc]
  have hsfin : stf.dist s ≠ ⊤ := by
    rw [hinvf.hSrc0]
    exact WithTop.zero_ne_top
  have hlower : ∀ v p c, Chain g p c → p.head? = some s → p.getLast? = some v →
      stf.dist v ≤ (c : EDist) := by
    intro v p c hc hh hl
    have := hclosure p c hc s v hh hl hsfin
    rwa [hinvf.hSrc0, zero_add] at this
  refine ⟨_, hrun, rfl, hinvf.hSrc0, ?_, ?_, hinvf.hPred, hinvf.hValid⟩
  · intro v
    exact ⟨fun p c hc hh hl => hlower v p c hc hh hl, fun hfin => hinvf.hReal v hfin⟩
  · intro v
    constructor
    · intro htop hreach
      obtain ⟨p, c, hc, hh, hl⟩ := hreach
      have hb := hlower v p c hc hh hl
      have htop2 : stf.dist v = ⊤ := htop
      rw [htop2] at hb
      exact absurd hb (by simp)
    · intro hnr
      by_contra htop
      obtain ⟨p, c, hc, hh, hl, _⟩ := hinvf.hReal v htop
      exact hnr ⟨p, c, hc, hh, hl⟩

/-! ### Path reconstruction correctness -/

theorem backpath_head {g : Graph} {dist : Int → EDist} {pred : Int → Int} {s v : Int}
    {l : List Int} (h : BackPath g dist pred s v l) : l.head? = some v := by
  cases h <;> rfl

theorem backpath_ne_nil {g : Graph} {dist : Int → EDist} {pred : Int → Int} {s v : Int}
    {l : List Int} (h : BackPath g dist pred s v l) : l ≠ [] := by
  cases h <;> simp

theorem backpath_fn {g : Graph} {dist : Int → EDist} {pred : Int → Int} {s : Int} :
    ∀ {v : Int} {l l' : List Int}, BackPath g dist pred s v l →
    BackPath g dist pred s v l' → l = l' := by
  intro v l l' h
  induction h generalizing l' with
  | base =>
    intro h'
    cases h' with
    | base => rfl
    | step v l hvs hex hbp => exact absurd rfl hvs
  | step v l hvs hex hbp ih =>
    intro h'
    cases h' with
    | base => exact absurd rfl hvs
    | step _ l₂ hvs₂ hex₂ hbp₂ => rw [ih hbp₂]

theorem backpath_mem_shorter {g : Graph} {dist : Int → EDist} {pred : Int → Int} {s : Int} :
    ∀ {v : Int} {l : List Int}, BackPath g dist pred s v l →
    ∀ x ∈ l, ∃ l', BackPath g dist pred s x l' ∧ l'.length ≤ l.length := by
  intro v l h
  induction h with
  | base =>
    intro x hx
    rw [List.mem_singleton] at hx
    subst hx
    exact ⟨[x], .base, le_refl _⟩
  | step v l hvs hex hbp ih =>
    intro x hx
    rcases List.mem_cons.mp hx with rfl | hx
    · exact ⟨x :: l, .step x l hvs hex hbp, le_refl _⟩
    · obtain ⟨l', hl', hlen⟩ := ih x hx
      exact ⟨l', hl', le_trans hlen (by simp)⟩

theorem backpath_nodup {g : Graph} {dist : Int → EDist} {pred : Int → Int} {s : Int} :
    ∀ {v : Int} {l : List Int}, BackPath g dist pred s v l → l.Nodup := by
  intro v l h
  induction h with
  | base => simp
  | step v l hvs hex hbp ih =>
    rw [List.nodup_cons]
    refine ⟨?_, ih⟩
    intro hvl
    obtain ⟨l', hl', hlen⟩ := backpath_mem_shorter hbp v hvl
    have heq : v :: l = l' := backpath_fn (.step v l hvs hex hbp) hl'
    have : l.length + 1 ≤ l.length := by
      calc l.length + 1 = (v :: l).length := by simp
        _ = l'.length := by rw [heq]
        _ ≤ l.length := hlen
    omega

theorem nodup_int_range_length {l : List Int} {n : Nat} (hnd : l.Nodup)
    (hmem : ∀ x ∈ l, 0 ≤ x ∧ x < (n : Int)) : l.length ≤ n := by
  have hsub : l ⊆ (List.range n).map (fun k : Nat => (k : Int)) := by
    intro x hx
    obtain ⟨h0, h1⟩ := hmem x hx
    rw [List.mem_map]
    exact ⟨x.toNat, List.mem_range.mpr (by omega), Int.toNat_of_nonneg h0⟩
  have := (hnd.subperm hsub).length_le
  simpa using this

theorem reconstructLoop_eq {g : Graph} {dist : Int → EDist} {pred : Int → Int} {s : Int} :
    ∀ {v : Int} {l : List Int}, BackPath g dist pred s v l → (∀ y ∈ l, y ≠ -1) →
    ∀ fuel, l.length ≤ fuel → reconstructLoop pred s fuel v = l := by
  intro v l h
  induction h with
  | base =>
    intro hne fuel hfuel
    cases fuel with
    | zero => simp at hfuel
    | succ f =>
      unfold reconstructLoop
      rw [if_neg (hne s (by simp)), if_pos rfl]
  | step v l hvs hex hbp ih =>
    intro hne fuel hfuel
    cases fuel with
    | zero => simp at hfuel
    | succ f =>
      unfold reconstructLoop
      rw [if_neg (hne v (by simp)), if_neg hvs]
      have := ih (fun y hy => hne y (List.mem_cons_of_mem _ hy)) f (by simp at hfuel; omega)
      rw [this]

theorem backpath_to_chain {g : Graph} {dist : Int → EDist} {pred : Int → Int} {s : Int}
    (hs0 : dist s = 0) :
    ∀ {v : Int} {l : List Int}, BackPath g dist pred s v l →
    ∃ c : ℚ, Chain g l.reverse c ∧ (c : EDist) ≤ dist v ∧
      l.reverse.head? = some s ∧ l.reverse.getLast? = some v := by
  intro v l h
  induction h with
  | base =>
    refine ⟨0, Chain.single s, ?_, rfl, rfl⟩
    rw [hs0]
    exact le_refl _
  | step v l hvs hex hbp ih =>
    obtain ⟨c0, hchain, hle0, hhead, hlast⟩ := ih
    obtain ⟨w, he, hle⟩ := hex
    refine ⟨c0 + w, ?_, ?_, ?_, ?_⟩
    · rw [List.reverse_cons]
      exact chain_append_edge hchain hlast he
    · rw [WithTop.coe_add]
      calc (c0 : EDist) + (w : EDist) ≤ dist (pred v) + (w : EDist) := add_le_add_right hle0 _
        _ ≤ dist v := hle
    · rw [List.reverse_cons, head_append_left (chain_ne_nil hchain)]
      exact hhead
    · rw [List.reverse_cons]
      exact List.getLast?_concat _

/-- Dijkstra::findShortestPath on a reachable pair: the returned path runs
from source to destination along edges of the graph, and the sum of the
chosen edge weights equals the reported total distance, which is itself
the exact shortest distance. -/
theorem findShortestPath_correct (g : Graph) (hwf : g.WF) (s t : Int)
    (hs : g.nodeExists s = true) (ht : g.nodeExists t = true) (hr : Reaches g s t) :
    ∃ pr, Dijkstra.findShortestPath g s t = some pr ∧ pr.found = true ∧
      pr.path.head? = some s ∧ pr.path.getLast? = some t ∧
      (∃ c : ℚ, Chain g pr.path c ∧ (c : EDist) = pr.totalDistance) ∧
      IsShortestDist g s t pr.totalDistance := by
  obtain ⟨r, hrun, hsucc, hs0, hshort, htop, hbp, hval⟩ :=
    findShortestPaths_correct g hwf s hs
  have hfin : r.distances t ≠ ⊤ := by
    intro h
    exact absurd hr ((htop t).mp h)
  obtain ⟨l, hl⟩ := hbp t hfin
  have hmemval : ∀ y ∈ l, 0 ≤ y ∧ y < (g.numVertices : Int) := by
    intro y hy
    have h1 : r.distances y ≤ r.distances t := backpath_dist_le hwf hl y hy
    have h2 : r.distances y ≠ ⊤ := ne_top_of_le_ne_top hfin h1
    exact hval y h2
  have hlenl : l.length ≤ g.numVertices :=
    nodup_int_range_length (backpath_nodup hl) hmemval
  have hne1 : ∀ y ∈ l, y ≠ -1 := by
    intro y hy heq
    have := (hmemval y hy).1
    omega
  have hrec : reconstructLoop r.predecessors s (g.numVertices + 1) t = l :=
    reconstructLoop_eq hl hne1 (g.numVertices + 1) (by omega)
  obtain ⟨c, hchain, hcle, hchead, hclast⟩ := backpath_to_chain hs0 hl
  have hpath : Dijkstra.reconstructPath s t r.predecessors (g.numVertices + 1) = l.reverse := by
    unfold Dijkstra.reconstructPath
    rw [hrec]
  have hceq : (c : EDist) = r.distances t := by
    refine le_antisymm hcle ?_
    exact (hshort t).1 l.reverse c hchain hchead hclast
  have hfsp : Dijkstra.findShortestPath g s t = some
      { path := l.reverse
        totalDistance := r.distances t
        estimatedTime := Dijkstra.calculateETA ((r.distances t).untop' 0) 40
        roadNames := roadNamesAlong g l.reverse
        found := true } := by
    unfold Dijkstra.findShortestPath
    rw [if_neg (by rw [hs]; simp), if_neg (by rw [ht]; simp), hrun]
    simp only []
    rw [if_neg (by rw [hsucc]; simp), if_neg (by rw [← Ne]; exact hfin)]
    rw [hpath]
  refine ⟨_, hfsp, rfl, hchead, hclast, ⟨c, hchain, hceq⟩, ?_⟩
  show IsShortestDist g s t (r.distances t)
  exact ⟨(hshort t).1, fun h => (hshort t).2 h⟩

theorem nodeExists_true_of_not_false {g : Graph} {v : Int}
    (h : ¬ g.nodeExists v = false) : g.nodeExists v = true := by
  cases hv : g.nodeExists v
  · exact absurd hv h
  · rfl

/-- Under graph well-formedness, findShortestPath always terminates with
some result (the fuel chosen in the embedding is never exhausted). -/
theorem findShortestPath_isSome (g : Graph) (hwf : g.WF) (s t : Int) :
    ∃ pr, Dijkstra.findShortestPath g s t = some pr := by
  by_cases hs : g.nodeExists s = false
  · exact ⟨default, by unfold Dijkstra.findShortestPath; rw [if_pos hs]⟩
  · have hs' := nodeExists_true_of_not_false hs
    by_cases ht : g.nodeExists t = false
    · exact ⟨default, by unfold Dijkstra.findShortestPath; rw [if_neg hs, if_pos ht]⟩
    · obtain ⟨r, hrun, hsucc, _, _, _, _, _⟩ := findShortestPaths_correct g hwf s hs'
      by_cases hfin : r.distances t = ⊤
      · refine ⟨default, ?_⟩
        unfold Dijkstra.findShortestPath
        rw [if_neg hs, if_neg ht, hrun]
        simp only []
        rw [if_neg (by rw [hsucc]; simp), if_pos hfin]
      · refine ⟨{ path := Dijkstra.reconstructPath s t r.predecessors (g.numVertices + 1)
                  totalDistance := r.distances t
                  estimatedTime := Dijkstra.calculateETA ((r.distances t).untop' 0) 40
                  roadNames := roadNamesAlong g
                    (Dijkstra.reconstructPath s t r.predecessors (g.numVertices + 1))
                  found := true }, ?_⟩
        unfold Dijkstra.findShortestPath
        rw [if_neg hs, if_neg ht, hrun]
        simp only []
        rw [if_neg (by rw [hsucc]; simp), if_neg hfin]

/-- Inversion for a found result of findShortestPath: the endpoints are
registered, the destination is reachable, and the reported distance is
the finite exact shortest distance. -/
theorem findShortestPath_found_inv (g : Graph) (hwf : g.WF) {s t : Int} {pr : PathResult}
    (h : Dijkstra.findShortestPath g s t = some pr) (hf : pr.found = true) :
    g.nodeExists s = true ∧ g.nodeExists t = true ∧ Reaches g s t ∧
    pr.totalDistance ≠ ⊤ ∧ IsShortestDist g s t pr.totalDistance := by
  by_cases hs : g.nodeExists s = false
  · unfold Dijkstra.findShortestPath at h
    rw [if_pos hs] at h
    cases h
    cases hf
  · have hs' := nodeExists_true_of_not_false hs
    by_cases ht : g.nodeExists t = false
    · unfold Dijkstra.findShortestPath at h
      rw [if_neg hs, if_pos ht] at h
      cases h
      cases hf
    · have ht' := nodeExists_true_of_not_false ht
      obtain ⟨r, hrun, hsucc, _, hshort, htop, _, _⟩ := findShortestPaths_correct g hwf s hs'
      unfold Dijkstra.findShortestPath at h
      rw [if_neg hs, if_neg ht, hrun] at h
      simp only [] at h
      rw [if_neg (by rw [hsucc]; simp)] at h
      by_cases hfin : r.distances t = ⊤
      · rw [if_pos hfin] at h
        cases h
        cases hf
      · rw [if_neg hfin] at h
        cases h
        refine ⟨hs', ht', ?_, hfin, ?_⟩
        · by_contra hnr
          exact hfin ((htop t).mpr hnr)
        · exact hshort t

/-- findShortestPath from a registered location to itself: found, with the
single-vertex path and distance zero. -/
theorem findShortestPath_self (g : Graph) (hwf : g.WF) {p : Int}
    (hp : g.nodeExists p = true) :
    ∃ pr, Dijkstra.findShortestPath g p p = some pr ∧ pr.found = true ∧
      pr.path = [p] ∧ pr.totalDistance = 0 := by
  obtain ⟨h0p, _⟩ := nodeExists_bounds hwf hp
  obtain ⟨r, hrun, hsucc, hs0, _, _, _, _⟩ := findShortestPaths_correct g hwf p hp
  have hfin : r.distances p ≠ ⊤ := by
    rw [hs0]
    exact WithTop.zero_ne_top
  have hrec : Dijkstra.reconstructPath p p r.predecessors (g.numVertices + 1) = [p] := by
    unfold Dijkstra.reconstructPath reconstructLoop
    rw [if_neg (by omega : ¬ p = -1), if_pos rfl]
    rfl
  refine ⟨{ path := [p], totalDistance := r.distances p
            estimatedTime := Dijkstra.calculateETA ((r.distances p).untop' 0) 40
            roadNames := roadNamesAlong g [p], found := true }, ?_, rfl, rfl, hs0⟩
  unfold Dijkstra.findShortestPath
  rw [if_neg (by rw [hp]; simp), if_neg (by rw [hp]; simp), hrun]
  simp only []
  rw [if_neg (by rw [hsucc]; simp), if_neg hfin]
  simp only [hrec]

/-! ### DriverManager (driver_manager.h / driver_manager.cpp) -/

/-- Driver from driver_manager.h. The default constructor sets location 0,
available, vehicle Sedan, rating 5.0, zero completed rides. -/
structure Driver where
  id : String
  name : String
  currentLocation : Int
  isAvailable : Bool
  vehicleType : String
  rating : ℚ
  completedRides : Nat
deriving DecidableEq

instance : Inhabited Driver := ⟨⟨"", "", 0, true, "Sedan", 5, 0⟩⟩

/-- The DriverManager hash map from driver id to driver record, modelled
as an association list in insertion order (iteration order of the C++
unordered map is unspecified; every theorem below quantifies over the
list, so each possible order is an instance). Operation log strings are
elided. -/
abbrev DMState : Type := List (String × Driver)

/-- DriverManager::addDriver: fails when the id is present. -/
def dmAddDriver (dm : DMState) (d : Driver) : DMState × Bool :=
  if (dm.lookup d.id).isSome then (dm, false) else (dm ++ [(d.id, d)], true)

/-- DriverManager::removeDriver. -/
def dmRemoveDriver (dm : DMState) (id : String) : DMState × Bool :=
  if (dm.lookup id).isSome then (dm.filter (fun p => p.1 != id), true) else (dm, false)

/-- DriverManager::updateDriverLocation. -/
def dmUpdateLocation (dm : DMState) (id : String) (newLocation : Int) : DMState × Bool :=
  if (dm.lookup id).isSome then
    (dm.map (fun p => if p.1 = id then (p.1, { p.2 with currentLocation := newLocation }) else p),
      true)
  else (dm, false)

/-- DriverManager::updateDriverAvailability. -/
def dmUpdateAvailability (dm : DMState) (id : String) (available : Bool) : DMState × Bool :=
  if (dm.lookup id).isSome then
    (dm.map (fun p => if p.1 = id then (p.1, { p.2 with isAvailable := available }) else p),
      true)
  else (dm, false)

/-- DriverManager::getAvailableDrivers: a snapshot of the available
driver records. -/
def dmGetAvailableDrivers (dm : DMState) : List Driver :=
  (dm.map Prod.snd).filter (fun d => d.isAvailable)

/-- DriverManager::getAllDrivers. -/
def dmGetAllDrivers (dm : DMState) : List Driver := dm.map Prod.snd

/-! ### RideMatcher (ride_matcher.h / ride_matcher.cpp) -/

/-- RideRequest from ride_matcher.h. The creation timestamp is modelled
as an abstract tick; no engine operation ever reads it. -/
structure RideRequest where
  requestId : String
  pickupLocation : Int
  destinationLocation : Int
  passengerId : String
  timestamp : Nat
deriving DecidableEq

/-- The systemLogs entries of RideMatcher, as structured events carrying
the same data as the formatted strings of the C++ logOperation calls. -/
inductive LogEvent where
  | addedRequest (requestId : String) (pickup destination : Int)
  | processingRequest (requestId : String)
  | errorInvalidPickup
  | errorInvalidDestination
  | errorSameLocation
  | noAvailableDrivers
  | searchingDrivers (count : Nat)
  | driverCandidate (id : String) (location : Int) (distance : EDist)
  | selectedDriver (id : String) (distance : EDist)
  | noReachableDriver
  | errorNoAvailableDrivers
  | errorNoRoute
  | rideMatched (totalDistance : EDist) (totalETA : ℚ)
deriving DecidableEq

/-- NearestDriverResult from driver_manager.h. -/
structure NearestDriverResult where
  driver : Driver
  distance : EDist
  pathToPassenger : List Int
  found : Bool
deriving DecidableEq

instance : Inhabited NearestDriverResult := ⟨⟨default, 0, [], false⟩⟩

/-- RideMatchResult from ride_matcher.h (log string vectors are carried as
event lists; dijkstraLogs and heapLogs are elided). Defaults follow the
C++ constructor. -/
structure RideMatchResult where
  success : Bool
  errorMessage : String
  assignedDriver : Driver
  driverToPickupDistance : EDist
  driverToPickupPath : List Int
  driverToPickupETA : ℚ
  pickupToDestinationPath : List Int
  pickupToDestinationDistance : EDist
  pickupToDestinationETA : ℚ
  totalDistance : EDist
  totalETA : ℚ
  matchingLogs : List LogEvent
deriving DecidableEq

instance : Inhabited RideMatchResult :=
  ⟨⟨false, "", default, 0, [], 0, [], 0, 0, 0, 0, []⟩⟩

/-- RideMatch from ride_matcher.h (the simplified synchronous result). -/
structure RideMatch where
  success : Bool
  message : String
  driver : Driver
  distanceToPickup : EDist
  distanceToDestination : EDist
  totalDistance : EDist
  estimatedTime : Int
  pathToPickup : List Int
  pathToDestination : List Int
deriving DecidableEq

instance : Inhabited RideMatch := ⟨⟨false, "", default, 0, 0, 0, 0, [], []⟩⟩

/-- The mutable state of RideMatcher: the driver registry, the request
queue, the sliding window and the system logs. The graph is held by
pointer in C++ and passed explicitly here. -/
structure RMState where
  drivers : DMState
  rideRequestQueue : List RideRequest
  recentRequests : List RideRequest
  systemLogs : List LogEvent
deriving DecidableEq

def SLIDING_WINDOW_SIZE : Nat := 20

/-- The while loop of RideMatcher::updateSlidingWindow, popping the front
while the size exceeds the bound; the fuel equals the list length, which
the loop can never exceed. -/
def trimFuel : Nat → List RideRequest → List RideRequest
  | 0, l => l
  | f + 1, l => if SLIDING_WINDOW_SIZE < l.length then trimFuel f l.tail else l

/-- RideMatcher::updateSlidingWindow. -/
def updateSlidingWindow (l : List RideRequest) (r : RideRequest) : List RideRequest :=
  trimFuel (l.length + 1) (l ++ [r])

/-- RideMatcher::addRideRequest: enqueue, update the window, log. -/
def addRideRequest (st : RMState) (r : RideRequest) : RMState :=
  { st with
    rideRequestQueue := st.rideRequestQueue ++ [r]
    recentRequests := updateSlidingWindow st.recentRequests r
    systemLogs := st.systemLogs ++
      [.addedRequest r.requestId r.pickupLocation r.destinationLocation] }

/-- The candidate loop of RideMatcher::findNearestDriver, threading the
running minimum, the best driver so far, its path, and the log events.
none propagates a (never occurring under WF) fuel exhaustion of the
shortest-path engine. -/
def fndLoop (g : Graph) (pickup : Int) :
    List Driver → EDist × Option Driver × List Int × List LogEvent →
    Option (EDist × Option Driver × List Int × List LogEvent)
  | [], acc => some acc
  | d :: rest, (minD, best, bestPath, logs) =>
    match Dijkstra.findShortestPath g d.currentLocation pickup with
    | none => none
    | some pr =>
      if pr.found = true ∧ pr.totalDistance < minD then
        fndLoop g pickup rest (pr.totalDistance, some d, pr.path,
          logs ++ [.driverCandidate d.id d.currentLocation pr.totalDistance])
      else fndLoop g pickup rest (minD, best, bestPath, logs)

/-- RideMatcher::findNearestDriver. Returns the result together with the
log events the call appends to systemLogs. -/
def findNearestDriver (g : Graph) (dm : DMState) (pickup : Int) :
    Option (NearestDriverResult × List LogEvent) :=
  let avail := dmGetAvailableDrivers dm
  if avail.isEmpty then some (default, [.noAvailableDrivers])
  else
    match fndLoop g pickup avail (⊤, none, [], [.searchingDrivers avail.length]) with
    | none => none
    | some (minD, best, bestPath, logs) =>
      match best with
      | some d => some (⟨d, minD, bestPath, true⟩, logs ++ [.selectedDriver d.id minD])
      | none => some (default, logs ++ [.noReachableDriver])

/-- RideMatcher::processRequest. systemLogs is cleared at entry (the log
events of this call replace the previous content), and the driver is
marked busy only on the full-success path. -/
def processRequest (g : Graph) (st : RMState) (req : RideRequest) :
    Option (RideMatchResult × RMState) :=
  let logs0 : List LogEvent := [.processingRequest req.requestId]
  if g.nodeExists req.pickupLocation = false then
    some ({ (default : RideMatchResult) with errorMessage := "Invalid pickup location" },
      { st with systemLogs := logs0 ++ [.errorInvalidPickup] })
  else if g.nodeExists req.destinationLocation = false then
    some ({ (default : RideMatchResult) with errorMessage := "Invalid destination location" },
      { st with systemLogs := logs0 ++ [.errorInvalidDestination] })
  else if req.pickupLocation = req.destinationLocation then
    some ({ (default : RideMatchResult) with
        errorMessage := "Pickup and destination cannot be the same" },
      { st with systemLogs := logs0 ++ [.errorSameLocation] })
  else
    match findNearestDriver g st.drivers req.pickupLocation with
    | none => none
    | some (nd, logs1) =>
      if nd.found = false then
        some ({ (default : RideMatchResult) with errorMessage := "No available drivers found" },
          { st with systemLogs := logs0 ++ logs1 ++ [.errorNoAvailableDrivers] })
      else
        match Dijkstra.findShortestPath g req.pickupLocation req.destinationLocation with
        | none => none
        | some p2 =>
          if p2.found = false then
            some ({ (default : RideMatchResult) with
                errorMessage := "No route found from pickup to destination" },
              { st with systemLogs := logs0 ++ logs1 ++ [.errorNoRoute] })
          else
            let res : RideMatchResult :=
              { success := true
                errorMessage := ""
                assignedDriver := nd.driver
                driverToPickupDistance := nd.distance
                driverToPickupPath := nd.pathToPassenger
                driverToPickupETA := Dijkstra.calculateETA (nd.distance.untop' 0) 40
                pickupToDestinationPath := p2.path
                pickupToDestinationDistance := p2.totalDistance
                pickupToDestinationETA := p2.estimatedTime
                totalDistance := nd.distance + p2.totalDistance
                totalETA := Dijkstra.calculateETA (nd.distance.untop' 0) 40 + p2.estimatedTime
                matchingLogs := logs0 ++ logs1 }
            some (res,
              { st with
                drivers := (dmUpdateAvailability st.drivers nd.driver.id false).1
                systemLogs := logs0 ++ logs1 ++ [.rideMatched res.totalDistance res.totalETA] })

/-- RideMatcher::processNextRequest. -/
def processNextRequest (g : Graph) (st : RMState) : Option (RideMatchResult × RMState) :=
  match st.rideRequestQueue with
  | [] => some ({ (default : RideMatchResult) with errorMessage := "No pending ride requests" }, st)
  | req :: rest => processRequest g { st with rideRequestQueue := rest } req

/-- RideMatcher::findRide: the synchronous variant. No request validation
is performed; systemLogs is not cleared; the driver is marked busy on
success. -/
def findRide (g : Graph) (st : RMState) (req : RideRequest) :
    Option (RideMatch × RMState) :=
  match findNearestDriver g st.drivers req.pickupLocation with
  | none => none
  | some (nd, logs1) =>
    let st1 := { st with systemLogs := st.systemLogs ++ logs1 }
    if nd.found = false then
      some ({ (default : RideMatch) with message := "No available drivers found" }, st1)
    else
      match Dijkstra.findShortestPath g nd.driver.currentLocation req.pickupLocation with
      | none => none
      | some dtp =>
        match Dijkstra.findShortestPath g req.pickupLocation req.destinationLocation with
        | none => none
        | some ptd =>
          if dtp.found = false ∨ ptd.found = false then
            some ({ (default : RideMatch) with message := "No valid path found" }, st1)
          else
            let total := dtp.totalDistance + ptd.totalDistance
            some ({ success := true
                    message := "Ride matched successfully"
                    driver := nd.driver
                    distanceToPickup := dtp.totalDistance
                    distanceToDestination := ptd.totalDistance
                    totalDistance := total
                    estimatedTime := Rat.floor ((total.untop' 0) / 40 * 60)
                    pathToPickup := dtp.path
                    pathToDestination := ptd.path },
              { st1 with drivers := (dmUpdateAvailability st.drivers nd.driver.id false).1 })

/-! ### Demand analytics (RideMatcher::analyzeDemand) -/

/-- DemandStats from ride_matcher.h; the constructor zeroes every
counter. -/
structure DemandStats where
  totalRequests : Nat
  successfulMatches : Nat
  failedMatches : Nat
  avgWaitTime : ℚ
  hotspots : List Int
deriving DecidableEq

instance : Inhabited DemandStats := ⟨⟨0, 0, 0, 0, []⟩⟩

/-- How often a pickup location occurs in the window. -/
def freqOf (l : List RideRequest) (loc : Int) : Nat :=
  (l.filter (fun r => r.pickupLocation == loc)).length

/-- The distinct pickup locations of the window (the key set of the
locationFrequency map built by analyzeDemand). -/
def pickupKeys (l : List RideRequest) : List Int :=
  (l.map (fun r => r.pickupLocation)).dedup

/-- The (location, frequency) pairs of the locationFrequency map. -/
def freqPairs (l : List RideRequest) : List (Int × Nat) :=
  (pickupKeys l).map (fun loc => (loc, freqOf l loc))

/-- RideMatcher::analyzeDemand as an executable refinement: the C++
iterates an unordered map and sorts with std::sort, both of which leave
the relative order of equal-frequency entries unspecified; this function
fixes one admissible order (first-key order, stable insertion sort).
DemandStatsAdmissible below is the set of outcomes the source semantics
actually guarantees, and analyzeDemand_admissible links the two. -/
def analyzeDemand (st : RMState) : DemandStats :=
  let base : DemandStats := { (default : DemandStats) with
    totalRequests := st.recentRequests.length }
  if st.recentRequests.isEmpty then base
  else
    let sorted := List.insertionSort (fun a b : Int × Nat => b.2 ≤ a.2)
      (freqPairs st.recentRequests)
    { base with hotspots := (sorted.take 3).map Prod.fst }

/-- The hotspot lists admitted by the source semantics: the pairs of the
frequency map in some order compatible with the std::sort comparator
(strictly descending frequency between ordered pairs is not guaranteed;
what is guaranteed is a permutation that is non-increasing in frequency),
truncated to three and projected to the location ids. -/
def HotspotsAdmissible (window : List RideRequest) (hs : List Int) : Prop :=
  ∃ sorted : List (Int × Nat), sorted.Perm (freqPairs window) ∧
    sorted.Pairwise (fun a b => b.2 ≤ a.2) ∧
    hs = (sorted.take 3).map Prod.fst

/-- The DemandStats results admitted by the source semantics of
RideMatcher::analyzeDemand. -/
def DemandStatsAdmissible (window : List RideRequest) (stats : DemandStats) : Prop :=
  stats.totalRequests = window.length ∧
  stats.successfulMatches = 0 ∧
  stats.failedMatches = 0 ∧
  stats.avgWaitTime = 0 ∧
  (if window = [] then stats.hotspots = [] else HotspotsAdmissible window stats.hotspots)

/-! ### Greedy nearest-driver search lemmas -/

theorem fndLoop_spec (g : Graph) (hwf : g.WF) (pickup : Int) :
    ∀ (ds : List Driver) (minD : EDist) (best : Option Driver) (bestPath : List Int)
      (logs : List LogEvent),
    ∃ minD' best' bestPath' logs',
      fndLoop g pickup ds (minD, best, bestPath, logs) = some (minD', best', bestPath', logs') ∧
      minD' ≤ minD ∧
      (∀ d ∈ ds, ∀ pr, Dijkstra.findShortestPath g d.currentLocation pickup = some pr →
        pr.found = true → minD' ≤ pr.totalDistance) ∧
      ((best' = best ∧ minD' = minD ∧ bestPath' = bestPath) ∨
        (∃ d ∈ ds, best' = some d ∧ ∃ pr,
          Dijkstra.findShortestPath g d.currentLocation pickup = some pr ∧ pr.found = true ∧
          pr.totalDistance = minD' ∧ pr.path = bestPath')) ∧
      (best.isSome = true → best'.isSome = true) ∧
      (minD = ⊤ → (∃ d ∈ ds, ∃ pr,
        Dijkstra.findShortestPath g d.currentLocation pickup = some pr ∧ pr.found = true) →
        best'.isSome = true) ∧
      (∃ extra, logs' = logs ++ extra ∧
        ∀ ev ∈ extra, ∃ i loc dd, ev = LogEvent.driverCandidate i loc dd) := by
  intro ds
  induction ds with
  | nil =>
    intro minD best bestPath logs
    refine ⟨minD, best, bestPath, logs, rfl, le_refl _, ?_, Or.inl ⟨rfl, rfl, rfl⟩, id, ?_, ?_⟩
    · intro d hd; cases hd
    · intro _ h
      obtain ⟨d, hd, _⟩ := h
      cases hd
    · exact ⟨[], by simp, fun ev hev => absurd hev (by simp)⟩
  | cons d0 rest ih =>
    intro minD best bestPath logs
    obtain ⟨pr0, hpr0⟩ := findShortestPath_isSome g hwf d0.currentLocation pickup
    simp only [fndLoop]
    rw [hpr0]
    simp only []
    by_cases hcond : pr0.found = true ∧ pr0.totalDistance < minD
    · rw [if_pos hcond]
      obtain ⟨minD', best', bestPath', logs', hrun, hle, hmin, hbest, hsome, hfind, hlogs⟩ :=
        ih pr0.totalDistance (some d0) pr0.path
          (logs ++ [LogEvent.driverCandidate d0.id d0.currentLocation pr0.totalDistance])
      refine ⟨minD', best', bestPath', logs', hrun, le_trans hle (le_of_lt hcond.2), ?_, ?_,
        fun _ => hsome rfl, fun _ _ => hsome rfl, ?_⟩
      · intro d hd pr hpr hf
        rcases List.mem_cons.mp hd with rfl | hd
        · rw [hpr0] at hpr
          cases hpr
          exact hle
        · exact hmin d hd pr hpr hf
      · rcases hbest with ⟨hb, hm, hp⟩ | ⟨d, hd, hb, pr, hpr, hf, hm, hp⟩
        · exact Or.inr ⟨d0, by simp, hb, pr0, hpr0, hcond.1, hm.symm, hp.symm⟩
        · exact Or.inr ⟨d, List.mem_cons_of_mem _ hd, hb, pr, hpr, hf, hm, hp⟩
      · obtain ⟨extra, hl, hall⟩ := hlogs
        refine ⟨LogEvent.driverCandidate d0.id d0.currentLocation pr0.totalDistance :: extra,
          by rw [hl]; simp, ?_⟩
        intro ev hev
        rcases List.mem_cons.mp hev with rfl | hev
        · exact ⟨d0.id, d0.currentLocation, pr0.totalDistance, rfl⟩
        · exact hall ev hev
    · rw [if_neg hcond]
      obtain ⟨minD', best', bestPath', logs', hrun, hle, hmin, hbest, hsome, hfind, hlogs⟩ :=
        ih minD best bestPath logs
      refine ⟨minD', best', bestPath', logs', hrun, hle, ?_, ?_, hsome, ?_, hlogs⟩
      · intro d hd pr hpr hf
        rcases List.mem_cons.mp hd with rfl | hd
        · rw [hpr0] at hpr
          cases hpr
          have hnlt : ¬ pr0.totalDistance < minD := fun hlt => hcond ⟨hf, hlt⟩
          exact le_trans hle (not_lt.mp hnlt)
        · exact hmin d hd pr hpr hf
      · rcases hbest with ⟨hb, hm, hp⟩ | ⟨d, hd, hb, pr, hpr, hf, hm, hp⟩
        · exact Or.inl ⟨hb, hm, hp⟩
        · exact Or.inr ⟨d, List.mem_cons_of_mem _ hd, hb, pr, hpr, hf, hm, hp⟩
      · intro htop hex
        rcases hex with ⟨d, hd, pr, hpr, hf⟩
        rcases List.mem_cons.mp hd with rfl | hd
        · rw [hpr0] at hpr
          cases hpr
          have hfin := (findShortestPath_found_inv g hwf hpr0 hf).2.2.2.1
          have hlt : pr0.totalDistance < minD := by
            rw [htop]
            exact lt_top_iff_ne_top.mpr hfin
          exact absurd ⟨hf, hlt⟩ hcond
        · exact hfind htop ⟨d, hd, pr, hpr, hf⟩

theorem mem_available_isAvailable {dm : DMState} {d : Driver}
    (h : d ∈ dmGetAvailableDrivers dm) : d.isAvailable = true := by
  unfold dmGetAvailableDrivers at h
  exact (List.mem_filter.mp h).2

/-- RideMatcher::findNearestDriver under a well-formed graph: total, and
on success the selected driver is an available driver realising the
global minimum reachable distance; the found flag is equivalent to the
existence of a reachable available driver; the log events distinguish
the empty-registry case from the no-reachable-driver case. -/
theorem findNearestDriver_spec (g : Graph) (hwf : g.WF) (dm : DMState) (pickup : Int) :
    ∃ r logs, findNearestDriver g dm pickup = some (r, logs) ∧
      (r.found = true →
        r.driver ∈ dmGetAvailableDrivers dm ∧ r.driver.isAvailable = true ∧
        (∃ pr, Dijkstra.findShortestPath g r.driver.currentLocation pickup = some pr ∧
          pr.found = true ∧ pr.totalDistance = r.distance ∧ pr.path = r.pathToPassenger) ∧
        (∀ d ∈ dmGetAvailableDrivers dm, ∀ pr,
          Dijkstra.findShortestPath g d.currentLocation pickup = some pr → pr.found = true →
          r.distance ≤ pr.totalDistance)) ∧
      (r.found = true ↔ ∃ d ∈ dmGetAvailableDrivers dm, ∃ pr,
        Dijkstra.findShortestPath g d.currentLocation pickup = some pr ∧ pr.found = true) ∧
      (dmGetAvailableDrivers dm = [] → r = default ∧ logs = [.noAvailableDrivers]) ∧
      (dmGetAvailableDrivers dm ≠ [] → LogEvent.noAvailableDrivers ∉ logs ∧
        (r.found = false → LogEvent.noReachableDriver ∈ logs)) := by
  unfold findNearestDriver
  by_cases hav : (dmGetAvailableDrivers dm).isEmpty = true
  · have hnil : dmGetAvailableDrivers dm = [] := by
      cases hl : dmGetAvailableDrivers dm with
      | nil => rfl
      | cons a l => rw [hl] at hav; simp at hav
    rw [if_pos hav]
    refine ⟨default, [.noAvailableDrivers], rfl, ?_, ?_, fun _ => ⟨rfl, rfl⟩, fun h => absurd hnil h⟩
    · intro hf; cases hf
    · constructor
      · intro hf; cases hf
      · intro ⟨d, hd, _⟩
        rw [hnil] at hd
        cases hd
  · rw [if_neg hav]
    have hnnil : dmGetAvailableDrivers dm ≠ [] := by
      intro h; rw [h] at hav; exact hav rfl
    obtain ⟨minD', best', bestPath', logs', hrun, hle, hmin, hbest, _, hfind, hlogs⟩ :=
      fndLoop_spec g hwf pickup (dmGetAvailableDrivers dm) ⊤ none []
        [.searchingDrivers (dmGetAvailableDrivers dm).length]
    rw [hrun]
    obtain ⟨extra, hlg, hallextra⟩ := hlogs
    cases hb : best' with
    | none =>
      refine ⟨default, logs' ++ [.noReachableDriver], rfl, ?_, ?_, fun h => absurd h hnnil, ?_⟩
      · intro hf; cases hf
      · constructor
        · intro hf; cases hf
        · intro hex
          have := hfind rfl hex
          rw [hb] at this
          cases this
      · intro _
        constructor
        · intro hmem
          rw [hlg] at hmem
          simp only [List.append_assoc, List.mem_append, List.mem_singleton] at hmem
          rcases hmem with hmem | hmem | hmem
          · simp at hmem
          · obtain ⟨i, loc, dd, hev⟩ := hallextra _ hmem
            cases hev
          · simp at hmem
        · intro _
          simp
    | some d =>
      rw [hb] at hbest
      rcases hbest with ⟨hbn, _, _⟩ | ⟨d2, hd2, hb2, pr, hpr, hf, hm, hp⟩
      · cases hbn
      · cases hb2
        refine ⟨⟨d, minD', bestPath', true⟩, logs' ++ [.selectedDriver d.id minD'], rfl,
          ?_, ?_, fun h => absurd h hnnil, ?_⟩
        · intro _
          exact ⟨hd2, mem_available_isAvailable hd2, ⟨pr, hpr, hf, hm, hp⟩, hmin⟩
        · exact iff_of_true rfl ⟨d, hd2, pr, hpr, hf⟩
        · intro _
          constructor
          · intro hmem
            rw [hlg] at hmem
            simp only [List.append_assoc, List.mem_append, List.mem_singleton] at hmem
            rcases hmem with hmem | hmem | hmem
            · simp at hmem
            · obtain ⟨i, loc, dd, hev⟩ := hallextra _ hmem
              cases hev
            · simp at hmem
          · intro hf2; cases hf2

/-- RideMatcher::processRequest: totality under a well-formed graph, the
queue and window are untouched, every failure leaves the driver registry
unchanged with a nonempty error message, and the success path flips the
assigned driver to unavailable. -/
theorem processRequest_spec (g : Graph) (hwf : g.WF) (st : RMState) (req : RideRequest) :
    ∃ res st', processRequest g st req = some (res, st') ∧
      st'.rideRequestQueue = st.rideRequestQueue ∧
      st'.recentRequests = st.recentRequests ∧
      (res.success = false → st'.drivers = st.drivers ∧ res.errorMessage ≠ "") ∧
      (res.success = true → res.errorMessage = "" ∧
        st'.drivers = (dmUpdateAvailability st.drivers res.assignedDriver.id false).1) := by
  unfold processRequest
  by_cases h1 : g.nodeExists req.pickupLocation = false
  · rw [if_pos h1]
    exact ⟨_, _, rfl, rfl, rfl, fun _ => ⟨rfl, by decide⟩, fun h => by cases h⟩
  · rw [if_neg h1]
    by_cases h2 : g.nodeExists req.destinationLocation = false
    · rw [if_pos h2]
      exact ⟨_, _, rfl, rfl, rfl, fun _ => ⟨rfl, by decide⟩, fun h => by cases h⟩
    · rw [if_neg h2]
      by_cases h3 : req.pickupLocation = req.destinationLocation
      · rw [if_pos h3]
        exact ⟨_, _, rfl, rfl, rfl, fun _ => ⟨rfl, by decide⟩, fun h => by cases h⟩
      · rw [if_neg h3]
        obtain ⟨nd, logs1, hnd, _⟩ := findNearestDriver_spec g hwf st.drivers req.pickupLocation
        rw [hnd]
        simp only []
        by_cases h4 : nd.found = false
        · rw [if_pos h4]
          exact ⟨_, _, rfl, rfl, rfl, fun _ => ⟨rfl, by decide⟩, fun h => by cases h⟩
        · rw [if_neg h4]
          obtain ⟨p2, hp2⟩ :=
            findShortestPath_isSome g hwf req.pickupLocation req.destinationLocation
          rw [hp2]
          simp only []
          by_cases h5 : p2.found = false
          · rw [if_pos h5]
            exact ⟨_, _, rfl, rfl, rfl, fun _ => ⟨rfl, by decide⟩, fun h => by cases h⟩
          · rw [if_neg h5]
            refine ⟨_, _, rfl, rfl, rfl, ?_, ?_⟩
            · intro h
              cases h
            · intro _
              exact ⟨rfl, rfl⟩

/-! ### Sliding-window lemmas -/

theorem sws_eq : SLIDING_WINDOW_SIZE = 20 := rfl

theorem trimFuel_eq : ∀ (f : Nat) (l : List RideRequest),
    l.length ≤ SLIDING_WINDOW_SIZE + f →
    trimFuel f l = l.drop (l.length - SLIDING_WINDOW_SIZE)
  | 0, l, h => by
    simp only [trimFuel]
    have h0 : l.length - SLIDING_WINDOW_SIZE = 0 := by
      rw [sws_eq] at h
      rw [sws_eq]
      omega
    rw [h0, List.drop_zero]
  | f + 1, l, h => by
    simp only [trimFuel]
    by_cases hlt : SLIDING_WINDOW_SIZE < l.length
    · rw [if_pos hlt]
      have htl : l.tail.length ≤ SLIDING_WINDOW_SIZE + f := by
        rw [List.length_tail, sws_eq]
        rw [sws_eq] at h
        omega
      rw [trimFuel_eq f l.tail htl, List.length_tail, ← List.drop_one, List.drop_drop]
      have harith : 1 + (l.length - 1 - SLIDING_WINDOW_SIZE) = l.length - SLIDING_WINDOW_SIZE := by
        rw [sws_eq] at hlt
        rw [sws_eq]
        omega
      rw [harith]
    · rw [if_neg hlt]
      have h0 : l.length - SLIDING_WINDOW_SIZE = 0 := by
        rw [sws_eq] at hlt
        rw [sws_eq]
        omega
      rw [h0, List.drop_zero]

theorem updateSlidingWindow_eq (l : List RideRequest) (r : RideRequest) :
    updateSlidingWindow l r = (l ++ [r]).drop (l.length + 1 - SLIDING_WINDOW_SIZE) := by
  unfold updateSlidingWindow
  have h := trimFuel_eq (l.length + 1) (l ++ [r]) (by simp)
  rw [h]
  simp

theorem foldl_usw_eq : ∀ (rs : List RideRequest) (l : List RideRequest),
    l.length ≤ SLIDING_WINDOW_SIZE →
    List.foldl updateSlidingWindow l rs
      = (l ++ rs).drop ((l ++ rs).length - SLIDING_WINDOW_SIZE)
  | [], l, h => by
    simp only [List.foldl_nil, List.append_nil]
    have h0 : l.length - SLIDING_WINDOW_SIZE = 0 := by
      rw [sws_eq] at h
      rw [sws_eq]
      omega
    rw [h0, List.drop_zero]
  | r :: rs, l, h => by
    have hwl : (updateSlidingWindow l r).length ≤ SLIDING_WINDOW_SIZE := by
      rw [updateSlidingWindow_eq, List.length_drop, List.length_append, sws_eq]
      rw [sws_eq] at h
      simp
      omega
    rw [List.foldl_cons, foldl_usw_eq rs (updateSlidingWindow l r) hwl, updateSlidingWindow_eq]
    have hk : l.length + 1 - SLIDING_WINDOW_SIZE ≤ (l ++ [r]).length := by
      rw [List.length_append, sws_eq]
      simp
      omega
    rw [← List.drop_append_of_le_length hk, List.drop_drop]
    have hlist : l ++ [r] ++ rs = l ++ r :: rs := by simp
    rw [hlist]
    congr 1
    rw [List.length_drop]
    simp only [List.length_append, List.length_cons, List.length_singleton, sws_eq]
    omega

theorem updateSlidingWindow_length_le (l : List RideRequest) (r : RideRequest) :
    (updateSlidingWindow l r).length ≤ max SLIDING_WINDOW_SIZE l.length := by
  rw [updateSlidingWindow_eq, List.length_drop, List.length_append, List.length_singleton,
    sws_eq]
  omega

theorem foldl_addRideRequest_window : ∀ (rs : List RideRequest) (st : RMState),
    (List.foldl addRideRequest st rs).recentRequests
      = List.foldl updateSlidingWindow st.recentRequests rs
  | [], st => rfl
  | r :: rs, st => by
    rw [List.foldl_cons, List.foldl_cons, foldl_addRideRequest_window rs]
    rfl

/-! ### Demand-analytics lemmas -/

theorem analyzeDemand_totalRequests (st : RMState) :
    (analyzeDemand st).totalRequests = st.recentRequests.length := by
  unfold analyzeDemand
  by_cases h : st.recentRequests.isEmpty = true
  · rw [if_pos h]
  · rw [if_neg h]

theorem analyzeDemand_counters (st : RMState) :
    (analyzeDemand st).successfulMatches = 0 ∧ (analyzeDemand st).failedMatches = 0 ∧
    (analyzeDemand st).avgWaitTime = 0 := by
  unfold analyzeDemand
  by_cases h : st.recentRequests.isEmpty = true
  · rw [if_pos h]
    exact ⟨rfl, rfl, rfl⟩
  · rw [if_neg h]
    exact ⟨rfl, rfl, rfl⟩

theorem hotRel_total :
    IsTotal (Int × Nat) (fun a b : Int × Nat => b.2 ≤ a.2) :=
  ⟨fun a b => le_total b.2 a.2⟩

theorem hotRel_trans :
    IsTrans (Int × Nat) (fun a b : Int × Nat => b.2 ≤ a.2) :=
  ⟨fun _ _ _ hab hbc => le_trans hbc hab⟩

/-- The executable analyzeDemand is one of the outcomes the C++ source
admits: the refinement obligation between the deterministic Lean model
and the nondeterministic std::sort-over-unordered-map semantics. -/
theorem analyzeDemand_admissible (st : RMState) :
    DemandStatsAdmissible st.recentRequests (analyzeDemand st) := by
  unfold DemandStatsAdmissible
  refine ⟨analyzeDemand_totalRequests st, (analyzeDemand_counters st).1,
    (analyzeDemand_counters st).2.1, (analyzeDemand_counters st).2.2, ?_⟩
  by_cases h : st.recentRequests.isEmpty = true
  · rw [if_pos (List.isEmpty_iff.mp h)]
    unfold analyzeDemand
    rw [if_pos h]
    rfl
  · rw [if_neg (fun hnil => h (List.isEmpty_iff.mpr hnil))]
    unfold analyzeDemand
    rw [if_neg h]
    refine ⟨List.insertionSort (fun a b : Int × Nat => b.2 ≤ a.2)
      (freqPairs st.recentRequests), List.perm_insertionSort _ _, ?_, rfl⟩
    haveI := hotRel_total
    haveI := hotRel_trans
    exact List.sorted_insertionSort _ _

theorem mem_freqPairs {w : List RideRequest} {p : Int × Nat} (hp : p ∈ freqPairs w) :
    p.2 = freqOf w p.1 := by
  unfold freqPairs at hp
  obtain ⟨loc, _, hmk⟩ := List.mem_map.mp hp
  rw [← hmk]

theorem hotspotsAdmissible_length_le {w : List RideRequest} {hs : List Int}
    (h : HotspotsAdmissible w hs) : hs.length ≤ 3 := by
  obtain ⟨sorted, _, _, hhs⟩ := h
  rw [hhs, List.length_map]
  exact le_trans (List.length_take_le _ _) (le_refl _)

theorem hotspotsAdmissible_ranked {w : List RideRequest} {hs : List Int}
    (h : HotspotsAdmissible w hs) :
    hs.Pairwise (fun a b => freqOf w b ≤ freqOf w a) := by
  obtain ⟨sorted, hperm, hsorted, hhs⟩ := h
  have hmem : ∀ p ∈ sorted, p.2 = freqOf w p.1 := fun p hp =>
    mem_freqPairs (hperm.mem_iff.mp hp)
  have hs2 : sorted.Pairwise (fun a b : Int × Nat => freqOf w b.1 ≤ freqOf w a.1) := by
    refine List.Pairwise.imp_of_mem ?_ hsorted
    intro a b ha hb hab
    rw [← hmem a ha, ← hmem b hb]
    exact hab
  have ht : (sorted.take 3).Pairwise (fun a b : Int × Nat => freqOf w b.1 ≤ freqOf w a.1) :=
    hs2.sublist (List.take_sublist _ _)
  rw [hhs, List.pairwise_map]
  exact ht

/-! ### Concrete demonstration worlds -/

/-- The 4-location graph of the spec scenario, built through the
construction API: bidirectional roads (0-1,w=2), (1-2,w=2), (2-3,w=1),
(0-2,w=5). -/
def demoGraphE : Except String Graph := do
  let g := Graph.new 4
  let g ← g.addNode 0 "A" 0 0
  let g ← g.addNode 1 "B" 0 0
  let g ← g.addNode 2 "C" 0 0
  let g ← g.addNode 3 "D" 0 0
  let g ← g.addEdge 0 1 2 ""
  let g ← g.addEdge 1 2 2 ""
  let g ← g.addEdge 2 3 1 ""
  let g ← g.addEdge 0 2 5 ""
  return g

def demoG : Graph := demoGraphE.toOption.getD (Graph.new 0)

def driver1 : Driver := ⟨"d1", "Alice", 1, true, "Sedan", 5, 0⟩

def driver2 : Driver := ⟨"d2", "Bob", 2, true, "SUV", 5, 0⟩

def demoDM : DMState := [("d1", driver1), ("d2", driver2)]

def demoSt : RMState := ⟨demoDM, [], [], []⟩

/-- A 3-location graph with a single road 0-1; location 2 is isolated. -/
def g7E : Except String Graph := do
  let g := Graph.new 3
  let g ← g.addNode 0 "A" 0 0
  let g ← g.addNode 1 "B" 0 0
  let g ← g.addNode 2 "C" 0 0
  let g ← g.addEdge 0 1 1 ""
  return g

def g7 : Graph := g7E.toOption.getD (Graph.new 0)

def driver7 : Driver := ⟨"d7", "Eve", 2, true, "Sedan", 5, 0⟩

def st7a : RMState := ⟨[("d7", driver7)], [], [], []⟩

def st7b : RMState := ⟨[], [], [], []⟩

def req7 : RideRequest := ⟨"r7", 0, 1, "p7", 0⟩

def req9 : RideRequest := ⟨"r9", 2, 2, "p9", 0⟩

def req4 : RideRequest := ⟨"r4", 3, 0, "p4", 0⟩

def w8 : List RideRequest := [⟨"r1", 1, 0, "", 0⟩, ⟨"r2", 2, 0, "", 0⟩]

def rs25 : List RideRequest := (List.range 25).map (fun i => ⟨"", (i : Int), 0, "", 0⟩)

def emptySt : RMState := ⟨[], [], [], []⟩

def opsBad : List HeapOp := [HeapOp.ins 0 1, HeapOp.ins 1 2, HeapOp.dec 0 5]

def opsGood : List HeapOp := [HeapOp.ins 0 1, HeapOp.ins 1 2, HeapOp.dec 1 1]

theorem demo_hasEdge01 : demoG.hasEdge 0 1 2 :=
  ⟨[⟨1, 2, ""⟩, ⟨2, 5, ""⟩], by with_unfolding_all decide, ⟨1, 2, ""⟩,
    by with_unfolding_all decide, rfl, rfl⟩

theorem demo_hasEdge12 : demoG.hasEdge 1 2 2 :=
  ⟨[⟨0, 2, ""⟩, ⟨2, 2, ""⟩], by with_unfolding_all decide, ⟨2, 2, ""⟩,
    by with_unfolding_all decide, rfl, rfl⟩

theorem demo_hasEdge23 : demoG.hasEdge 2 3 1 :=
  ⟨[⟨1, 2, ""⟩, ⟨3, 1, ""⟩, ⟨0, 5, ""⟩], by with_unfolding_all decide, ⟨3, 1, ""⟩,
    by with_unfolding_all decide, rfl, rfl⟩

theorem demo_reaches : Reaches demoG 0 3 := by
  refine ⟨[0, 1, 2, 3], 2 + (2 + (1 + 0)), ?_, rfl, rfl⟩
  exact Chain.cons 0 1 2 (2 + (1 + 0)) [2, 3] demo_hasEdge01
    (Chain.cons 1 2 2 (1 + 0) [3] demo_hasEdge12
      (Chain.cons 2 3 1 0 [] demo_hasEdge23 (Chain.single 3)))

/-! ### The claims -/

/-- C1: for every well-formed graph and registered source,
findShortestPaths returns for each vertex the exact shortest-path
distance (0 for the source, top exactly for the unreachable vertices);
on the demo graph, findShortestPath 0 3 returns the path [0, 1, 2, 3]
with total distance 5. -/
theorem claim_C1 :
    (∀ (g : Graph) (s : Int), g.WF → g.nodeExists s = true →
      ∃ r : DijkstraResult, Dijkstra.findShortestPaths g s = some r ∧ r.success = true ∧
        r.distances s = 0 ∧
        (∀ v, IsShortestDist g s v (r.distances v)) ∧
        (∀ v, r.distances v = ⊤ ↔ ¬ Reaches g s v)) ∧
    (∃ pr, Dijkstra.findShortestPath demoG 0 3 = some pr ∧
      pr.path = [0, 1, 2, 3] ∧ pr.totalDistance = ((5 : ℚ) : EDist) ∧ pr.found = true) := by
  constructor
  · intro g s hwf hs
    obtain ⟨r, h1, h2, h3, h4, h5, _, _⟩ := findShortestPaths_correct g hwf s hs
    exact ⟨r, h1, h2, h3, h4, h5⟩
  · exact ⟨⟨[0, 1, 2, 3], ((5 : ℚ) : EDist), 15/2, ["", "", ""], true⟩,
      by with_unfolding_all decide, rfl, rfl, rfl⟩

/-- Witness for C1: the universal part applied to the demo graph with
source 0. -/
theorem claim_C1_witness :
    ∃ r : DijkstraResult, Dijkstra.findShortestPaths demoG 0 = some r ∧ r.success = true ∧
      r.distances 0 = 0 ∧
      (∀ v, IsShortestDist demoG 0 v (r.distances v)) ∧
      (∀ v, r.distances v = ⊤ ↔ ¬ Reaches demoG 0 v) :=
  claim_C1.1 demoG 0 (by with_unfolding_all decide) (by with_unfolding_all decide)

/-- C2 counterexample: the op sequence insert(0,1); insert(1,2);
decreaseKey(0,5) inserts every vertex at most once, yet extractMin then
returns the entry of distance 5 while an entry of distance 2 is stored:
decreaseKey never checks that the new key is smaller, and a raising call
breaks the heap order, refuting the claimed minimality guarantee for
arbitrary insert/extractMin/decreaseKey sequences. -/
theorem claim_C2_counterexample :
    validInserts MinHeap.empty opsBad = true ∧
    (⟨1, ((2 : ℚ) : EDist)⟩ : HeapNode) ∈ (runOps opsBad).heap ∧
    (runOps opsBad).extractMin.1.distance = ((5 : ℚ) : EDist) ∧
    ¬ ((runOps opsBad).extractMin.1.distance ≤ ((2 : ℚ) : EDist)) := by
  with_unfolding_all decide

/-- C2 (amended): after every sequence of insert, extractMin and
decreaseKey calls in which each inserted vertex is absent at the time of
its insert AND no decreaseKey call raises the stored distance of a
present vertex, the position index maps every present vertex to exactly
the array slot holding it, and extractMin on a non-empty heap returns an
entry of globally minimal stored distance. -/
theorem claim_C2_amended (ops : List HeapOp) (hv : validOps MinHeap.empty ops = true) :
    (runOps ops).PosInv ∧
    ((runOps ops).heap ≠ [] →
      (runOps ops).extractMin.1 ∈ (runOps ops).heap ∧
      ∀ e ∈ (runOps ops).heap, (runOps ops).extractMin.1.distance ≤ e.distance) := by
  have hinv := runOps_inv ops hv
  exact ⟨hinv.1, fun hne => extractMin_returns_min (runOps ops) hinv hne⟩

/-- Witness for the amended C2: a concrete sequence with a genuine
(non-raising) decreaseKey. -/
theorem claim_C2_amended_witness :
    (runOps opsGood).PosInv ∧
    ((runOps opsGood).heap ≠ [] →
      (runOps opsGood).extractMin.1 ∈ (runOps opsGood).heap ∧
      ∀ e ∈ (runOps opsGood).heap, (runOps opsGood).extractMin.1.distance ≤ e.distance) :=
  claim_C2_amended opsGood (by with_unfolding_all decide)

/-- C3: findNearestDriver always returns; on success the selected driver
is a currently available driver whose shortest-path distance to the
pickup equals the global minimum over all available drivers with a path
to the pickup, and success is equivalent to such a driver existing. -/
theorem claim_C3 (g : Graph) (hwf : g.WF) (dm : DMState) (pickup : Int) :
    ∃ r logs, findNearestDriver g dm pickup = some (r, logs) ∧
      (r.found = true →
        r.driver ∈ dmGetAvailableDrivers dm ∧ r.driver.isAvailable = true ∧
        (∃ pr, Dijkstra.findShortestPath g r.driver.currentLocation pickup = some pr ∧
          pr.found = true ∧ pr.totalDistance = r.distance ∧ pr.path = r.pathToPassenger) ∧
        (∀ d ∈ dmGetAvailableDrivers dm, ∀ pr,
          Dijkstra.findShortestPath g d.currentLocation pickup = some pr → pr.found = true →
          r.distance ≤ pr.totalDistance)) ∧
      (r.found = true ↔ ∃ d ∈ dmGetAvailableDrivers dm, ∃ pr,
        Dijkstra.findShortestPath g d.currentLocation pickup = some pr ∧ pr.found = true) := by
  obtain ⟨r, logs, h1, h2, h3, _⟩ := findNearestDriver_spec g hwf dm pickup
  exact ⟨r, logs, h1, h2, h3⟩

/-- Witness for C3: the demo registry with pickup 0. -/
theorem claim_C3_witness :
    ∃ r logs, findNearestDriver demoG demoDM 0 = some (r, logs) ∧
      (r.found = true →
        r.driver ∈ dmGetAvailableDrivers demoDM ∧ r.driver.isAvailable = true ∧
        (∃ pr, Dijkstra.findShortestPath demoG r.driver.currentLocation 0 = some pr ∧
          pr.found = true ∧ pr.totalDistance = r.distance ∧ pr.path = r.pathToPassenger) ∧
        (∀ d ∈ dmGetAvailableDrivers demoDM, ∀ pr,
          Dijkstra.findShortestPath demoG d.currentLocation 0 = some pr → pr.found = true →
          r.distance ≤ pr.totalDistance)) ∧
      (r.found = true ↔ ∃ d ∈ dmGetAvailableDrivers demoDM, ∃ pr,
        Dijkstra.findShortestPath demoG d.currentLocation 0 = some pr ∧ pr.found = true) :=
  claim_C3 demoG (by with_unfolding_all decide) demoDM 0

/-- C4: processRequest always returns; every failure returns
success = false, a nonempty error message and an unchanged driver
registry; the success path flips exactly the assigned driver to
unavailable; in particular a no-route failure (after a driver was
already selected) leaves the registry unchanged. -/
theorem claim_C4 (g : Graph) (hwf : g.WF) (st : RMState) (req : RideRequest) :
    ∃ res st', processRequest g st req = some (res, st') ∧
      (res.success = false → st'.drivers = st.drivers ∧ res.errorMessage ≠ "") ∧
      (res.success = true → res.errorMessage = "" ∧
        st'.drivers = (dmUpdateAvailability st.drivers res.assignedDriver.id false).1) ∧
      (res.errorMessage = "No route found from pickup to destination" →
        st'.drivers = st.drivers) := by
  obtain ⟨res, st', h1, _, _, hf, hs⟩ := processRequest_spec g hwf st req
  refine ⟨res, st', h1, hf, hs, ?_⟩
  intro hmsg
  cases hres : res.success
  · exact (hf hres).1
  · have hemp := (hs hres).1
    rw [hemp] at hmsg
    exact absurd hmsg (by decide)

/-- Witness for C4: the demo world with the request from 3 to 0. -/
theorem claim_C4_witness :
    ∃ res st', processRequest demoG demoSt req4 = some (res, st') ∧
      (res.success = false → st'.drivers = demoSt.drivers ∧ res.errorMessage ≠ "") ∧
      (res.success = true → res.errorMessage = "" ∧
        st'.drivers = (dmUpdateAvailability demoSt.drivers res.assignedDriver.id false).1) ∧
      (res.errorMessage = "No route found from pickup to destination" →
        st'.drivers = demoSt.drivers) :=
  claim_C4 demoG (by with_unfolding_all decide) demoSt req4

/-- C5: for every reachable (source, destination) pair of registered
locations, the returned path starts at the source, ends at the
destination, every consecutive pair is joined by an edge, and the sum of
the chosen edge weights equals the reported totalDistance. -/
theorem claim_C5 (g : Graph) (s t : Int) (hwf : g.WF) (hs : g.nodeExists s = true)
    (ht : g.nodeExists t = true) (hr : Reaches g s t) :
    ∃ pr, Dijkstra.findShortestPath g s t = some pr ∧ pr.found = true ∧
      pr.path.head? = some s ∧ pr.path.getLast? = some t ∧
      (∃ c : ℚ, Chain g pr.path c ∧ (c : EDist) = pr.totalDistance) := by
  obtain ⟨pr, h1, h2, h3, h4, h5, _⟩ := findShortestPath_correct g hwf s t hs ht hr
  exact ⟨pr, h1, h2, h3, h4, h5⟩

/-- Witness for C5: the demo graph pair (0, 3). -/
theorem claim_C5_witness :
    ∃ pr, Dijkstra.findShortestPath demoG 0 3 = some pr ∧ pr.found = true ∧
      pr.path.head? = some 0 ∧ pr.path.getLast? = some 3 ∧
      (∃ c : ℚ, Chain demoG pr.path c ∧ (c : EDist) = pr.totalDistance) :=
  claim_C5 demoG 0 3 (by with_unfolding_all decide) (by with_unfolding_all decide)
    (by with_unfolding_all decide) demo_reaches

/-- C6: starting from a window within the bound, the window after any
enqueue sequence is exactly the suffix of all enqueued requests that
keeps the most recent SLIDING_WINDOW_SIZE of them (strict FIFO eviction,
never more than 20 entries); enqueuing 25 requests sequentially from an
empty window leaves analyzeDemand totalRequests = 20 and the window
holding exactly the last 20 requests. -/
theorem claim_C6 :
    (∀ (st : RMState) (rs : List RideRequest),
      st.recentRequests.length ≤ SLIDING_WINDOW_SIZE →
      (List.foldl addRideRequest st rs).recentRequests
        = (st.recentRequests ++ rs).drop
            ((st.recentRequests ++ rs).length - SLIDING_WINDOW_SIZE) ∧
      (List.foldl addRideRequest st rs).recentRequests.length ≤ SLIDING_WINDOW_SIZE) ∧
    (∀ (st : RMState) (rs : List RideRequest), st.recentRequests = [] → rs.length = 25 →
      (analyzeDemand (List.foldl addRideRequest st rs)).totalRequests = 20 ∧
      (List.foldl addRideRequest st rs).recentRequests = rs.drop 5) := by
  have key : ∀ (st : RMState) (rs : List RideRequest),
      st.recentRequests.length ≤ SLIDING_WINDOW_SIZE →
      (List.foldl addRideRequest st rs).recentRequests
        = (st.recentRequests ++ rs).drop
            ((st.recentRequests ++ rs).length - SLIDING_WINDOW_SIZE) := by
    intro st rs h
    rw [foldl_addRideRequest_window, foldl_usw_eq rs st.recentRequests h]
  constructor
  · intro st rs h
    refine ⟨key st rs h, ?_⟩
    rw [key st rs h, List.length_drop, sws_eq]
    omega
  · intro st rs hnil hlen
    have h0 : st.recentRequests.length ≤ SLIDING_WINDOW_SIZE := by
      rw [hnil]
      simp
    have hw := key st rs h0
    rw [hnil] at hw
    simp only [List.nil_append] at hw
    rw [hlen, sws_eq] at hw
    norm_num at hw
    refine ⟨?_, hw⟩
    rw [analyzeDemand_totalRequests, hw, List.length_drop, hlen]

/-- Witness for C6: 25 concrete requests folded into the empty matcher
state. -/
theorem claim_C6_witness :
    (analyzeDemand (List.foldl addRideRequest emptySt rs25)).totalRequests = 20 ∧
    (List.foldl addRideRequest emptySt rs25).recentRequests = rs25.drop 5 :=
  claim_C6.2 emptySt rs25 rfl (by with_unfolding_all decide)

/-- C7 counterexample: on the graph with the single road 0-1 and one
available driver stranded at the isolated location 2, processRequest of
a 0-to-1 request yields literally the same RideMatchResult (success
false, errorMessage "No available drivers found") as running the same
request with no drivers registered at all: the two failure cases are not
distinct in the result, refuting the claimed distinction. -/
theorem claim_C7_counterexample :
    (dmGetAvailableDrivers st7a.drivers).length = 1 ∧
    (Dijkstra.findShortestPath g7 2 0).map PathResult.found = some false ∧
    dmGetAvailableDrivers st7b.drivers = [] ∧
    (processRequest g7 st7a req7).map Prod.fst = (processRequest g7 st7b req7).map Prod.fst ∧
    (processRequest g7 st7a req7).map (fun p => p.1.errorMessage)
      = some "No available drivers found" := by
  with_unfolding_all decide

/-- C7 (amended): when the nearest-driver search comes back unsuccessful
on a validated request, processRequest fails with success = false and
errorMessage "No available drivers found" whether or not any driver was
available, leaving the registry unchanged; only the internal search log
distinguishes the two cases: with at least one available driver the log
records noReachableDriver and never noAvailableDrivers. -/
theorem claim_C7_amended (g : Graph) (hwf : g.WF) (st : RMState) (req : RideRequest)
    (r : NearestDriverResult) (logs : List LogEvent)
    (hnd : findNearestDriver g st.drivers req.pickupLocation = some (r, logs))
    (hnf : r.found = false)
    (hp : g.nodeExists req.pickupLocation = true)
    (hd : g.nodeExists req.destinationLocation = true)
    (hne : ¬ req.pickupLocation = req.destinationLocation) :
    (∃ res st', processRequest g st req = some (res, st') ∧ res.success = false ∧
      res.errorMessage = "No available drivers found" ∧ st'.drivers = st.drivers) ∧
    (dmGetAvailableDrivers st.drivers ≠ [] →
      LogEvent.noReachableDriver ∈ logs ∧ LogEvent.noAvailableDrivers ∉ logs) := by
  constructor
  · have hp' : ¬ g.nodeExists req.pickupLocation = false := by
      rw [hp]
      intro h
      cases h
    have hd' : ¬ g.nodeExists req.destinationLocation = false := by
      rw [hd]
      intro h
      cases h
    unfold processRequest
    rw [if_neg hp', if_neg hd', if_neg hne, hnd]
    simp only []
    rw [if_pos hnf]
    exact ⟨_, _, rfl, rfl, rfl, rfl⟩
  · intro hnnil
    obtain ⟨r0, logs0, hnd0, _, _, _, hnn⟩ :=
      findNearestDriver_spec g hwf st.drivers req.pickupLocation
    rw [hnd0] at hnd
    cases hnd
    obtain ⟨hno, himp⟩ := hnn hnnil
    exact ⟨himp hnf, hno⟩

/-- Witness for the amended C7: the stranded-driver world. -/
theorem claim_C7_amended_witness :
    ((∃ res st', processRequest g7 st7a req7 = some (res, st') ∧ res.success = false ∧
      res.errorMessage = "No available drivers found" ∧ st'.drivers = st7a.drivers) ∧
    (dmGetAvailableDrivers st7a.drivers ≠ [] →
      LogEvent.noReachableDriver ∈ [LogEvent.searchingDrivers 1, LogEvent.noReachableDriver] ∧
      LogEvent.noAvailableDrivers ∉ [LogEvent.searchingDrivers 1, LogEvent.noReachableDriver])) :=
  claim_C7_amended g7 (by with_unfolding_all decide) st7a req7 default
    [LogEvent.searchingDrivers 1, LogEvent.noReachableDriver]
    (by with_unfolding_all decide) rfl (by with_unfolding_all decide)
    (by with_unfolding_all decide) (by with_unfolding_all decide)

/-- C8 counterexample: a window holding one request at pickup 1 and one
at pickup 2 (equal frequency 1) admits both [1, 2] and [2, 1] as hotspot
lists under the source semantics (std::sort over an unordered map leaves
the order of equal-frequency entries unspecified), so the claimed
deterministic tie ordering does not hold. -/
theorem claim_C8_counterexample :
    HotspotsAdmissible w8 [1, 2] ∧ HotspotsAdmissible w8 [2, 1] ∧
    ([1, 2] : List Int) ≠ [2, 1] := by
  refine ⟨⟨[(1, 1), (2, 1)], ?_, ?_, rfl⟩, ⟨[(2, 1), (1, 1)], ?_, ?_, rfl⟩, by decide⟩
  · with_unfolding_all decide
  · decide
  · with_unfolding_all decide
  · decide

/-- C8 (amended): analyzeDemand returns at most 3 hotspot locations
ranked by non-increasing frequency within the window, and its outcome
lies in the admissible set of the source semantics; the relative order
of equal-frequency locations is left unspecified by the source. -/
theorem claim_C8_amended (st : RMState) :
    (analyzeDemand st).hotspots.length ≤ 3 ∧
    (analyzeDemand st).hotspots.Pairwise
      (fun a b => freqOf st.recentRequests b ≤ freqOf st.recentRequests a) ∧
    DemandStatsAdmissible st.recentRequests (analyzeDemand st) := by
  obtain ⟨_, _, _, _, hlast⟩ := analyzeDemand_admissible st
  by_cases hnil : st.recentRequests = []
  · rw [if_pos hnil] at hlast
    refine ⟨?_, ?_, analyzeDemand_admissible st⟩
    · rw [hlast]
      simp
    · rw [hlast]
      exact List.Pairwise.nil
  · rw [if_neg hnil] at hlast
    exact ⟨hotspotsAdmissible_length_le hlast, hotspotsAdmissible_ranked hlast,
      analyzeDemand_admissible st⟩

/-- C9: findRide performs none of the request validation of
processRequest: a request whose pickup equals its registered destination
succeeds whenever some available driver can reach it, with
distanceToDestination 0, a single-node pickup-to-destination path, and
the driver still flipped to unavailable. -/
theorem claim_C9 (g : Graph) (hwf : g.WF) (st : RMState) (req : RideRequest)
    (hsame : req.destinationLocation = req.pickupLocation)
    (hp : g.nodeExists req.pickupLocation = true)
    (hreach : ∃ d ∈ dmGetAvailableDrivers st.drivers, ∃ pr,
      Dijkstra.findShortestPath g d.currentLocation req.pickupLocation = some pr ∧
      pr.found = true) :
    ∃ m st', findRide g st req = some (m, st') ∧ m.success = true ∧
      m.message = "Ride matched successfully" ∧
      m.distanceToDestination = 0 ∧ m.pathToDestination = [req.pickupLocation] ∧
      st'.drivers = (dmUpdateAvailability st.drivers m.driver.id false).1 := by
  obtain ⟨r, logs, hnd, hprops, hiff, _⟩ :=
    findNearestDriver_spec g hwf st.drivers req.pickupLocation
  have hft : r.found = true := hiff.mpr hreach
  obtain ⟨_, _, ⟨pr, hpr, hprf, _, _⟩, _⟩ := hprops hft
  obtain ⟨ps, hps, hpsf, hpath, hdist⟩ := findShortestPath_self g hwf hp
  unfold findRide
  rw [hnd]
  simp only []
  rw [if_neg (by rw [hft]; intro h; cases h), hpr]
  simp only []
  rw [hsame, hps]
  simp only []
  rw [if_neg (by rw [hprf, hpsf]; simp)]
  refine ⟨_, _, rfl, rfl, rfl, ?_, ?_, rfl⟩
  · exact hdist
  · exact hpath

/-- Witness for C9: the demo world with pickup = destination = 2. -/
theorem claim_C9_witness :
    ∃ m st', findRide demoG demoSt req9 = some (m, st') ∧ m.success = true ∧
      m.message = "Ride matched successfully" ∧
      m.distanceToDestination = 0 ∧ m.pathToDestination = [req9.pickupLocation] ∧
      st'.drivers = (dmUpdateAvailability demoSt.drivers m.driver.id false).1 :=
  claim_C9 demoG (by with_unfolding_all decide) demoSt req9 rfl
    (by with_unfolding_all decide)
    ⟨driver2, by with_unfolding_all decide,
      ⟨[2], ((0 : ℚ) : EDist), 0, [], true⟩, by with_unfolding_all decide, rfl⟩

/-- C10: analyzeDemand always returns successfulMatches = 0,
failedMatches = 0 and avgWaitTime = 0, whatever the matcher state: no
operation ever updates these DemandStats fields. -/
theorem claim_C10 (st : RMState) :
    (analyzeDemand st).successfulMatches = 0 ∧ (analyzeDemand st).failedMatches = 0 ∧
    (analyzeDemand st).avgWaitTime = 0 :=
  analyzeDemand_counters st

end RideSharing
